import Mathlib

/-!
Verification development for the info_extract adaptive schema-mapping engine.

Shallow embedding conventions:
* Python strings are modelled as `List Char` (one entry per code point, matching
  Python's indexing/slicing semantics) or as Lean `String` where only whole-string
  operations occur.
* Python floats used only for comparison and sorting (similarity scores) are
  modelled as `ℚ`.
* Fallible calls (query execution, date parsing) are modelled as `Option`-returning
  parameters: `none` models a raised exception / failed parse.
* The external embedding service is modelled as an arbitrary score matrix
  parameter, since the verified code only compares and sorts the scores.
-/

/-! ## ColumnUtil.advanced_clean_text (dataframe_mapping_extract.py lines 30-60)

The Python function applies, in order, the regex substitutions
`[\n\r\t] -> ' '`, `\s+ -> ' '`, `[\(\)（）] -> ''`, `[①-⑩] -> ''`,
`[#@$%^&*] -> ''`; if the result is empty it falls back to the longest
contiguous CJK run of the original text (first one on ties), else to the
first 20 characters of the original text. -/

/-- Characters matched by Python's `re` pattern `[\n\r\t]` (code points 10, 13, 9). -/
def isNRT (c : Char) : Bool := c.toNat = 10 ∨ c.toNat = 13 ∨ c.toNat = 9

/-- Characters matched by Python's `\s` on `str` (Unicode whitespace). -/
def isPyWs (c : Char) : Bool :=
  let n := c.toNat
  (9 ≤ n ∧ n ≤ 13) ∨ (28 ≤ n ∧ n ≤ 31) ∨ n = 32 ∨ n = 0x85 ∨ n = 0xa0 ∨
  n = 0x1680 ∨ (0x2000 ≤ n ∧ n ≤ 0x200a) ∨ n = 0x2028 ∨ n = 0x2029 ∨
  n = 0x202f ∨ n = 0x205f ∨ n = 0x3000

/-- Characters matched by `[\(\)（）]` (code points 40, 41, 0xff08, 0xff09). -/
def isParenChar (c : Char) : Bool :=
  c.toNat = 40 ∨ c.toNat = 41 ∨ c.toNat = 0xff08 ∨ c.toNat = 0xff09

/-- Characters matched by `[①②③④⑤⑥⑦⑧⑨⑩]` (U+2460 .. U+2469). -/
def isCircled (c : Char) : Bool := 0x2460 ≤ c.toNat ∧ c.toNat ≤ 0x2469

/-- Characters matched by `[#@$%^&*]` (code points 35, 64, 36, 37, 94, 38, 42). -/
def isSymbolChar (c : Char) : Bool :=
  c.toNat = 35 ∨ c.toNat = 64 ∨ c.toNat = 36 ∨ c.toNat = 37 ∨
  c.toNat = 94 ∨ c.toNat = 38 ∨ c.toNat = 42

/-- CJK range `[一-鿿]` used by the fallback. -/
def cjk (c : Char) : Bool := 0x4e00 ≤ c.toNat ∧ c.toNat ≤ 0x9fff

/-- `re.sub(r'[\n\r\t]', ' ', s)`. -/
def sub1 (l : List Char) : List Char := l.map (fun c => if isNRT c then ' ' else c)

/-- Worker for `re.sub(r'\s+', ' ', s)`: `sawWs` records whether the previous
character belonged to a (already replaced) whitespace run. -/
def collapseAux : Bool → List Char → List Char
  | _, [] => []
  | sawWs, c :: rest =>
    if isPyWs c then
      if sawWs then collapseAux true rest
      else ' ' :: collapseAux true rest
    else c :: collapseAux false rest

/-- `re.sub(r'\s+', ' ', s)`: every maximal whitespace run becomes one space. -/
def collapse (l : List Char) : List Char := collapseAux false l

/-- `re.sub(r'[\(\)（）]', '', s)`. -/
def sub3 (l : List Char) : List Char := l.filter (fun c => ¬ isParenChar c)

/-- `re.sub(r'[①②③④⑤⑥⑦⑧⑨⑩]', '', s)`. -/
def sub4 (l : List Char) : List Char := l.filter (fun c => ¬ isCircled c)

/-- `re.sub(r'[#@$%^&*]', '', s)`. -/
def sub5 (l : List Char) : List Char := l.filter (fun c => ¬ isSymbolChar c)

/-- The five ordered substitutions of `ColumnUtil.clean_patterns`. -/
def cleanedCore (l : List Char) : List Char := sub5 (sub4 (sub3 (collapse (sub1 l))))

/-- `re.findall(r'[一-鿿]+', text)`: maximal nonempty CJK runs, in order.
`acc` holds the current run, reversed. -/
def cjkRunsAux (acc : List Char) : List Char → List (List Char)
  | [] => if acc.isEmpty then [] else [acc.reverse]
  | c :: rest =>
    if cjk c then cjkRunsAux (c :: acc) rest
    else if acc.isEmpty then cjkRunsAux [] rest
    else acc.reverse :: cjkRunsAux [] rest

/-- All maximal nonempty CJK runs of a string. -/
def cjkRuns (l : List Char) : List (List Char) := cjkRunsAux [] l

/-- Python `max(parts, key=len)`: first element of maximal length. -/
def maxByLen (r : List Char) (rs : List (List Char)) : List Char :=
  rs.foldl (fun best x => if best.length < x.length then x else best) r

/-- `ColumnUtil.advanced_clean_text`. -/
def advanced_clean_text (text : List Char) : List Char :=
  if text.isEmpty then []
  else
    let cleaned := cleanedCore text
    if cleaned.isEmpty then
      match cjkRuns text with
      | [] => text.take 20
      | r :: rs => maxByLen r rs
    else cleaned

/-! ## Normalized match candidates (dataframe_mapping_extract.py line 24)

`Normalized : TypeAlias = Tuple[str, Optional[str], float]` -/

/-- One match candidate `(standard header, matched input header or None, confidence)`. -/
abbrev Normalized : Type := String × Option String × ℚ

/-! ## DataFrameMappingExtract.distinguish_work_type and make_sql
(dataframe_mapping_extract.py lines 114-148) -/

/-- Python `needle in hay` on strings: contiguous substring test. -/
def containsSub (hay needle : String) : Bool :=
  hay.data.tails.any (fun t => needle.data.isPrefixOf t)

/-- The constant select item `'离职' as "作业"`. -/
def leaveExpr : String := "'离职' as \"作业\""

/-- The constant select item `'入职' as "作业"`. -/
def joinExpr : String := "'入职' as \"作业\""

/-- The constant select item `'' as "作业"`. -/
def emptyExpr : String := "'' as \"作业\""

/-- The conditional work-type expression. `textwrap.dedent` is the identity here
because the first line of the literal (`case `) carries no leading whitespace,
making the common margin empty. -/
def caseExpr : String :=
  "case \n                        when not \"离职日期\" is null then '离职'\n                        when not \"入职日期\" is null then '入职'\n                        else ''\n                    end as \"作业\" "

/-- The date-resolution fallthrough of `distinguish_work_type` (lines 121-134):
Python reaches this code when no sheet-name cue produced an early `return`. -/
def work_type_by_dates (normalized : List Normalized) : String :=
  let has_join_date := normalized.any (fun n => n.1 = "入职日期" ∧ n.2.1.isSome)
  let has_leave_date := normalized.any (fun n => n.1 = "离职日期" ∧ n.2.1.isSome)
  if has_join_date ∧ ¬ has_leave_date then joinExpr
  else if ¬ has_join_date ∧ has_leave_date then leaveExpr
  else if has_join_date ∧ has_leave_date then caseExpr
  else emptyExpr

/-- `DataFrameMappingExtract.distinguish_work_type` (lines 114-134). -/
def distinguish_work_type (normalized : List Normalized) (sheet_name : String) : String :=
  if ¬ containsSub sheet_name "入离职" then
    if containsSub sheet_name "离职" ∨ containsSub sheet_name "减员" then leaveExpr
    else if containsSub sheet_name "入职" ∨ containsSub sheet_name "增员" then joinExpr
    else work_type_by_dates normalized
  else work_type_by_dates normalized

/-- The select item generated for one non-`作业` candidate (lines 142-145).
Python tests `if input_header:` — truthiness — so a `None` match *and* an
empty-string match both fall to the `null` branch; only a non-empty matched
header is emitted as a quoted column reference. -/
def sqlItemFor (nz : Normalized) : String :=
  match nz.2.1 with
  | some ih =>
    if ih = "" then "null as \"" ++ nz.1 ++ "\""
    else "\"" ++ ih ++ "\" as \"" ++ nz.1 ++ "\""
  | none => "null as \"" ++ nz.1 ++ "\""

/-- The `select_columns` list built by `make_sql` (lines 137-145). -/
def select_columns (normalized : List Normalized) (sheet_name : String) : List String :=
  distinguish_work_type normalized sheet_name ::
    (normalized.filter (fun nz => ¬ nz.1 = "作业")).map sqlItemFor

/-- `DataFrameMappingExtract.make_sql` (lines 136-148). -/
def make_sql (normalized : List Normalized) (sheet_name : String) : String :=
  "SELECT " ++ String.intercalate "," (select_columns normalized sheet_name) ++ " FROM df"

/-- Modelled from the claim/spec wording for C3: the work-type rule as the
specification states it, to be compared with `distinguish_work_type`. -/
def workTypeSpec (normalized : List Normalized) (sheet_name : String) : String :=
  let lacksBoth := ¬ containsSub sheet_name "入离职"
  let termCue := containsSub sheet_name "离职" ∨ containsSub sheet_name "减员"
  let onbCue := containsSub sheet_name "入职" ∨ containsSub sheet_name "增员"
  let joinResolved := normalized.any (fun n => n.1 = "入职日期" ∧ n.2.1.isSome)
  let leaveResolved := normalized.any (fun n => n.1 = "离职日期" ∧ n.2.1.isSome)
  if lacksBoth ∧ termCue then leaveExpr
  else if lacksBoth ∧ onbCue then joinExpr
  else if joinResolved ∧ ¬ leaveResolved then joinExpr
  else if leaveResolved ∧ ¬ joinResolved then leaveExpr
  else if joinResolved ∧ leaveResolved then caseExpr
  else emptyExpr

/-! ## SpreadsheetExtractor._run_sql fence stripping (spreadsheet_extract.py 116-130) -/

/-- The seven characters Python's `sql[7:]` skips when the text starts with a fence. -/
def fenceOpener : List Char := ("```sql\n").data

/-- A transformation wrapped in a code fence: opener, body, closing backticks. -/
def fenceWrap (body : List Char) : List Char := fenceOpener ++ body ++ ("```").data

/-- `if sql.startswith("```sql"): sql = sql[7:-3]` — the query text actually
submitted to `duckdb.sql`. Python's `s[7:-3]` keeps indices `7 .. len-4`. -/
def stripFence (sql : List Char) : List Char :=
  if ("```sql").data.isPrefixOf sql then (sql.drop 7).take (sql.length - 10)
  else sql

/-! ## Date post-processing (_fix_date / _fix_ym, spreadsheet_extract.py 145-167
and dataframe_mapping_extract.py 172-194)

A table is a list of named columns of opaque cell values; `pd.to_datetime`
followed by `strftime` is a fallible external parse, modelled as parameters
`parseD` (producing `YYYY-MM-DD`) and `parseM` (producing `YYYY-MM`). -/

/-- Python `col.endswith("日期")`. -/
def endsRi (name : String) : Bool := name.data.reverse.take 2 = ['期', '日']

/-- Python `col.endswith("月")`. -/
def endsYue (name : String) : Bool := name.data.reverse.take 1 = ['月']

/-- `_fix_date`: every value of a `日期`-suffixed column is replaced by its parse
when the parse succeeds, left unchanged otherwise (the bare `except` branch). -/
def fix_date {α : Type} (parseD : α → Option α) (table : List (String × List α)) :
    List (String × List α) :=
  table.map (fun col =>
    if endsRi col.1 then (col.1, col.2.map (fun v => (parseD v).getD v)) else col)

/-- `_fix_ym`: same for `月`-suffixed columns with the `YYYY-MM` format. -/
def fix_ym {α : Type} (parseM : α → Option α) (table : List (String × List α)) :
    List (String × List α) :=
  table.map (fun col =>
    if endsYue col.1 then (col.1, col.2.map (fun v => (parseM v).getD v)) else col)

/-- Modelled from the claim wording for C8: one pass that reformats `日期`
columns with the date parse, `月` columns with the month parse, and leaves all
other columns untouched. -/
def postProcessSpec {α : Type} (parseD parseM : α → Option α)
    (table : List (String × List α)) : List (String × List α) :=
  table.map (fun col =>
    if endsRi col.1 then (col.1, col.2.map (fun v => (parseD v).getD v))
    else if endsYue col.1 then (col.1, col.2.map (fun v => (parseM v).getD v))
    else col)

/-! ## PlaybookManager (ace/playbook.py)

Entries are modelled as `(sequence index, content)` pairs: the store names a
file `{preffix}_{idx:05d}.txt`, and `list_playbooks` parses the index back out
of the file name, so the index is the semantically relevant part of the name. -/

/-- The backing directory: one entry per playbook file of this namespace. -/
abbrev PBFiles : Type := List (Nat × String)

/-- Writing a file: replaces the entry with the same index, else appends. -/
def pbWrite (files : PBFiles) (idx : Nat) (content : String) : PBFiles :=
  if files.any (fun f => f.1 = idx) then
    files.map (fun f => if f.1 = idx then (idx, content) else f)
  else files ++ [(idx, content)]

/-- The `self.count` update performed by `list_playbooks` (lines 16-25):
the running maximum of every scanned index, starting from the current count. -/
def list_playbooks_count (files : PBFiles) (count : Nat) : Nat :=
  files.foldl (fun acc f => if acc < f.1 then f.1 else acc) count

/-- A `PlaybookManager` instance: the directory contents and the cached count. -/
structure PlaybookManager where
  files : PBFiles
  count : Nat

/-- `PlaybookManager.__init__`: `count = 0` then `list_playbooks()`. -/
def PlaybookManager.init (files : PBFiles) : PlaybookManager :=
  { files := files, count := list_playbooks_count files 0 }

/-- `create_playbook` (lines 35-38): writes `{preffix}_{count+1:05d}.txt`.
It neither rescans the directory nor increments `count`. -/
def create_playbook (m : PlaybookManager) (content : String) : PlaybookManager :=
  { files := pbWrite m.files (m.count + 1) content, count := m.count }

/-! ## SpreadsheetExtractor._fetch_one control flow (spreadsheet_extract.py 64-111)

Only the error-handling skeleton matters for C1: the cached branch runs
`_run_sql(cached_sql, raw_df)` with no surrounding `try`, while the fresh
branch wraps `_run_sql(result.output, raw_df)` in `try/except` and on failure
awaits `reflect` (which calls `overview_playbooks`) and `curate`.
`execResult sql = some rows` models a successful execution returning a table
with `rows` rows; `none` models a raised `ExecutionError`. -/

/-- How `_fetch_one` terminates for one sheet. -/
inductive FetchOutcome
  /-- The result table was post-processed and saved; the sheet succeeded. -/
  | saved (rows : Nat)
  /-- `result_df is None`: logged and reported failed via `return "", None`. -/
  | reportedFailed
  /-- An exception escaped `_fetch_one` entirely (no handler on this path). -/
  | raisedOut
deriving DecidableEq

/-- Observable trace of one `_fetch_one` call. -/
structure FetchTrace where
  outcome : FetchOutcome
  /-- `reflect(...)` ran, producing a `ReflectionRecord`. -/
  reflectionProduced : Bool
  /-- `overview_playbooks` was called against the Playbook Store
  (`reflect` always calls it to build its prompt). -/
  overviewCalled : Bool
deriving DecidableEq

/-- `SpreadsheetExtractor._fetch_one`, error-handling skeleton. -/
def fetch_one (cachedSql : Option String) (execResult : String → Option Nat)
    (freshSql : String) : FetchTrace :=
  match cachedSql with
  | some sql =>
    -- cached branch: `result_df = self._run_sql(cached_sql, raw_df)` — no try/except
    match execResult sql with
    | some rows => ⟨.saved rows, false, false⟩
    | none => ⟨.raisedOut, false, false⟩
  | none =>
    -- fresh branch: try: run + save_mapping_sql; except: reflect then curate
    match execResult freshSql with
    | some rows => ⟨.saved rows, false, false⟩
    | none => ⟨.reportedFailed, true, true⟩

/-! ## SemanticHeaderNormalizer.semantic_similarity
(dataframe_mapping_extract.py lines 256-307)

The synonym-aggregated score matrix `std_to_input_sim` is an opaque input
`score : Nat → Nat → ℚ` (row = standard-header index, column = input-header
index): the verified code only compares, sorts and copies the scores, so any
matrix produced by the embedding service is covered. -/

/-- Step 3: candidate triples `(score, std_idx, inp_idx)` with
`score >= min_confidence`, generated std-major then input-major. -/
def buildCandidates (numStd numInput : Nat) (score : Nat → Nat → ℚ)
    (minConf : ℚ) : List (ℚ × Nat × Nat) :=
  (List.range numStd).flatMap (fun i =>
    (List.range numInput).filterMap (fun j =>
      if minConf ≤ score i j then some (score i j, i, j) else none))

/-- Stable descending insertion used to model Python's
`candidates.sort(key=lambda x: x[0], reverse=True)` (a stable sort):
`c` is placed before the first strictly smaller score, after equal scores. -/
def insertDesc (c : ℚ × Nat × Nat) : List (ℚ × Nat × Nat) → List (ℚ × Nat × Nat)
  | [] => [c]
  | d :: rest => if d.1 ≤ c.1 then c :: d :: rest else d :: insertDesc c rest

/-- Stable sort, descending by score; ties keep generation order, exactly as
Python's stable `list.sort(..., reverse=True)`. -/
def sortDesc : List (ℚ × Nat × Nat) → List (ℚ × Nat × Nat)
  | [] => []
  | c :: rest => insertDesc c (sortDesc rest)

/-- Step 4 state: the two `assigned_*` sets and the per-standard-field result. -/
structure GreedySt where
  asgStd : List Nat
  asgInp : List Nat
  result : List (Option Normalized)

/-- One iteration of the greedy assignment loop (lines 290-300). -/
def greedyStep (stdH inpH : List String) (st : GreedySt) (c : ℚ × Nat × Nat) : GreedySt :=
  if c.2.1 ∈ st.asgStd ∨ c.2.2 ∈ st.asgInp then st
  else
    { asgStd := c.2.1 :: st.asgStd
      asgInp := c.2.2 :: st.asgInp
      result := st.result.set c.2.1
        (some (stdH.getD c.2.1 "", some (inpH.getD c.2.2 ""), c.1)) }

/-- Step 5 (lines 302-305): unmatched standard fields become `(name, None, 0.0)`. -/
def fillNone (stdH : List String) (res : List (Option Normalized)) : List Normalized :=
  (List.range stdH.length).map (fun i =>
    match res.getD i none with
    | some nz => nz
    | none => (stdH.getD i "", none, 0))

/-- `SemanticHeaderNormalizer.semantic_similarity` (lines 256-307), downstream
of the synonym-aggregated score matrix. -/
def semantic_similarity (stdH inpH : List String) (score : Nat → Nat → ℚ)
    (minConf : ℚ) : List Normalized :=
  let sorted := sortDesc (buildCandidates stdH.length inpH.length score minConf)
  let final := sorted.foldl (greedyStep stdH inpH)
    { asgStd := [], asgInp := [], result := List.replicate stdH.length none }
  fillNone stdH final.result

/-! ## SemanticHeaderNormalizer._contextual_reassessment (lines 333-366) -/

/-- Placeholder used for out-of-range reads (never hit on real indices). -/
def blankNz : Normalized := ("", none, 0)

/-- Python `max(positions, key=lambda pos: normalized[pos][2])`: the first
position holding the maximal confidence, among positions whose entry matched
input header `h`. `header_positions` only records truthy headers, so `h = ""`
never reaches this function. -/
def bestPos (l : List Normalized) (h : String) : Nat :=
  match (List.range l.length).filter (fun i => (l.getD i blankNz).2.1 = some h) with
  | [] => l.length
  | p :: ps =>
    ps.foldl (fun best q =>
      if (l.getD best blankNz).2.2 < (l.getD q blankNz).2.2 then q else best) p

/-- What the duplicate-input pass leaves at absolute position `i`: an entry whose
matched header is falsy (None or `""`, per `if match[1]:`) is untouched; an
entry matching a truthy header survives only at the best position of that
header's group, and is blanked to `(name, None, 0)` elsewhere. -/
def p1entry (l : List Normalized) (i : Nat) (nz : Normalized) : Normalized :=
  if nz.2.1 = none ∨ nz.2.1 = some "" then nz
  else if i = bestPos l (nz.2.1.getD "") then nz
  else (nz.1, none, 0)

/-- The duplicate-input pass (lines 337-350), position by position; `i` is the
absolute index of the head of `rest` within the full list `l`. -/
def phase1Go (l : List Normalized) (i : Nat) : List Normalized → List Normalized
  | [] => []
  | nz :: rest => p1entry l i nz :: phase1Go l (i + 1) rest

/-- Python `max(group, key=lambda nz: nz[2])`: first maximal-confidence entry. -/
def maxByConf (x : Normalized) (l : List Normalized) : Normalized :=
  l.foldl (fun best y => if best.2.2 < y.2.2 then y else best) x

/-- `SemanticHeaderNormalizer._contextual_reassessment` (lines 333-366). -/
def contextual_reassessment (stdH : List String) (l0 : List Normalized) :
    List Normalized :=
  let l1 := phase1Go l0 0 l0
  let m := l1.filter (fun nz => ¬ nz.2.2 = 0)
  stdH.map (fun h =>
    match m.filter (fun nz => nz.1 = h) with
    | [] => (h, none, 0)
    | g :: gs => maxByConf g gs)

/-- `normalize` (lines 309-331), restricted to its `normalized` output
(the `unmatched` report is not the object of any claim); named
`normalize_headers` here because Mathlib already declares `normalize`. -/
def normalize_headers (stdH inpH : List String) (score : Nat → Nat → ℚ)
    (minConf : ℚ) : List Normalized :=
  contextual_reassessment stdH (semantic_similarity stdH inpH score minConf)

/-! ## Executor.run (executor.py lines 59-115)

One pipeline unit (a sheet read / extraction / export) is atomic in the
orchestrator: the cancellation event is polled before each stage and before
the handling of each unit result, never mid-unit.  `cancel t` is the value
`cancellation_event.is_set()` returns at the `t`-th poll of this run. -/

/-- Events the `run` generator yields to its caller. -/
inductive RunEvent
  /-- A progress string for one completed unit (`读取…` / `提取…` / `…处理完成`). -/
  | progress (s : String)
  /-- The cancellation notice `任务已取消: {name}` yielded just before returning. -/
  | cancelled (stage : String)
deriving DecidableEq

/-- `RunEvent.progress`, as a Bool predicate. -/
def isProgressEv : RunEvent → Bool
  | .progress _ => true
  | .cancelled _ => false

/-- Orchestrator state: yielded events so far, poll counter, early-return flag. -/
structure RunSt where
  events : List RunEvent
  time : Nat
  aborted : Bool

/-- One poll of the cancellation event (`if cancellation_event.is_set(): yield
f"任务已取消: {name}"; return`). -/
def pollCheck (cancel : Nat → Bool) (name : String) (st : RunSt) : RunSt :=
  if cancel st.time then
    { events := st.events ++ [RunEvent.cancelled name], time := st.time + 1,
      aborted := true }
  else { st with time := st.time + 1 }

/-- The inner `async for result in step.run(...)` loop of one stage: poll, then
collect the unit result and yield its progress string. Returns the updated
state and the results appended to the stage's accumulator list. -/
def runUnits (cancel : Nat → Bool) (name : String) (mk : String → String) :
    List String → RunSt → RunSt × List String
  | [], st => (st, [])
  | u :: rest, st =>
    let st1 := pollCheck cancel name st
    if st1.aborted then (st1, [])
    else
      let st2 := { st1 with events := st1.events ++ [RunEvent.progress (mk u)] }
      let (st3, collected) := runUnits cancel name mk rest st2
      (st3, u :: collected)

/-- One stage of the loop: the pre-stage poll, then the unit loop.
`units` is what `step.run` would yield given the collected predecessor
results; a stage reached with `aborted` set contributes nothing (the Python
function already returned). -/
def runStage (cancel : Nat → Bool) (name : String) (mk : String → String)
    (units : List String) (st : RunSt) : RunSt × List String :=
  if st.aborted then (st, [])
  else
    let st1 := pollCheck cancel name st
    if st1.aborted then (st1, []) else runUnits cancel name mk units st1

/-- A source stage: name and the unit results its reader yields. -/
structure SourceStage where
  name : String
  units : List String

/-- An extraction or destination stage: name, the eligibility filter `verify`,
and the unit results `run` yields given the eligible predecessor results. -/
structure FnStage where
  name : String
  verify : String → Bool
  run : List String → List String

/-- Chains every source stage, threading the accumulated `source_results`. -/
def runSources (cancel : Nat → Bool) : List SourceStage → RunSt → List String →
    RunSt × List String
  | [], st, acc => (st, acc)
  | s :: rest, st, acc =>
    let (st1, collected) := runStage cancel s.name (fun u => "读取" ++ u) s.units st
    runSources cancel rest st1 (acc ++ collected)

/-- Chains every extractor stage (`pre_enabled_result` filtering included). -/
def runExtractors (cancel : Nat → Bool) (srcResults : List String) :
    List FnStage → RunSt → List String → RunSt × List String
  | [], st, acc => (st, acc)
  | s :: rest, st, acc =>
    let units := s.run (srcResults.filter s.verify)
    let (st1, collected) := runStage cancel s.name (fun u => "提取" ++ u) units st
    runExtractors cancel srcResults rest st1 (acc ++ collected)

/-- Chains every destination stage (results yielded but not accumulated). -/
def runDests (cancel : Nat → Bool) (extResults : List String) :
    List FnStage → RunSt → RunSt
  | [], st => st
  | s :: rest, st =>
    let units := s.run extResults
    let (st1, _) := runStage cancel s.name (fun u => u ++ "处理完成") units st
    runDests cancel extResults rest st1

/-- `Executor.run`: source stages, then extractors over the filtered source
results, then destinations over the extraction results. -/
def executorRun (sources : List SourceStage) (extractors dests : List FnStage)
    (cancel : Nat → Bool) : RunSt :=
  let st0 : RunSt := { events := [], time := 0, aborted := false }
  let (st1, srcResults) := runSources cancel sources st0 []
  let (st2, extResults) := runExtractors cancel srcResults extractors st1 []
  runDests cancel extResults dests st2

/-! ## Proof-side predicates for the cleaning pipeline

These classify the outputs of `advanced_clean_text`; they are not part of the
source program, only of its verification. -/

/-- A character that none of the three removal substitutions deletes and that
the first substitution does not rewrite. -/
def weakGood (c : Char) : Bool :=
  (! isNRT c) && (! isParenChar c) && (! isCircled c) && (! isSymbolChar c)

/-- A character that the removal set deletes. -/
def removableChar (c : Char) : Bool := isParenChar c || isCircled c || isSymbolChar c

/-- The head of the list, if any, is not whitespace. -/
def headNotWs : List Char → Bool
  | [] => true
  | c :: _ => ! isPyWs c

/-- No two adjacent whitespace characters. -/
def noAdjWs : List Char → Bool
  | [] => true
  | c :: rest => ((! isPyWs c) || headNotWs rest) && noAdjWs rest

/-- The never-raised cancellation signal: models a run whose
`cancellation_event` is never set. -/
def cancelNever : Nat → Bool := fun _ => false

/-- The progress events one stage yields for a list of completed units. -/
def unitsProgress (mk : String → String) (units : List String) : List RunEvent :=
  units.map (fun u => RunEvent.progress (mk u))

/-- The event list of a run that observed the cancellation signal: progress
events followed by exactly one final cancellation notice. -/
def DoneEvents (ev : List RunEvent) : Prop :=
  ∃ nm pre, ev = pre ++ [RunEvent.cancelled nm] ∧ pre.all isProgressEv = true

/-- Relation between the outcome `p1` of a possibly-cancelled run fragment and
the outcome `p2` of the same fragment with the signal never set: either no poll
observed the signal and the two outcomes are identical (with only progress
events emitted), or the fragment aborted and its events are a progress prefix
of the uncancelled fragment's, closed by one cancellation notice. -/
def SimOut (p1 p2 : RunSt × List String) : Prop :=
  (p1.1.aborted = false → p1 = p2 ∧ p1.1.events.all isProgressEv = true) ∧
  (p1.1.aborted = true → DoneEvents p1.1.events ∧
    p1.1.events.filter isProgressEv <+: p2.1.events.filter isProgressEv)

/-- `SimOut` for fragments that return only a state. -/
def SimSt (s1 s2 : RunSt) : Prop :=
  (s1.aborted = false → s1 = s2 ∧ s1.events.all isProgressEv = true) ∧
  (s1.aborted = true → DoneEvents s1.events ∧
    s1.events.filter isProgressEv <+: s2.events.filter isProgressEv)

/-- Invariant of the greedy-assignment state: every standard index holding a
match in `result` has been recorded in `assigned_std_indices` (true of the
initial state and preserved by every loop iteration). -/
def GreedyInv (st : GreedySt) : Prop :=
  ∀ i, st.result.getD i none ≠ none → i ∈ st.asgStd

/-! # Claim theorems -/

/-! ## C1 — ExecutionError on a cached transformation -/

/-- C1: the claim states that an `ExecutionError` on a *cached* transformation
produces a `ReflectionRecord` and an `overview` call before the sheet is
reported failed.  The code contradicts this: the cached branch of
`SpreadsheetExtractor._fetch_one` calls `_run_sql` outside any `try`, so the
exception escapes with no reflection and no overview call — in contrast with
the fresh-synthesis branch, which on the same failure reflects (producing a
`ReflectionRecord` and calling `overview_playbooks`) and reports the sheet
failed.  This theorem evaluates the embedded control flow at a failing input
to exhibit the divergence. -/
theorem c1_cached_error_skips_reflection :
    fetch_one (some ("CACHED SQL")) (fun _ => none) ("FRESH SQL") =
      ⟨FetchOutcome.raisedOut, false, false⟩ ∧
    fetch_one none (fun _ => none) ("FRESH SQL") =
      ⟨FetchOutcome.reportedFailed, true, true⟩ :=
  ⟨rfl, rfl⟩

/-! ## C2 — PlaybookManager.create sequence numbering -/

/-- C2: the claim states that every `create` recomputes the next unused suffix
by rescanning the directory, so two consecutive `create` calls on one instance
yield two distinct entries and never overwrite.  The code contradicts this:
`create_playbook` writes `{prefix}_{count+1:05d}.txt` without rescanning or
incrementing `count`, so on a manager built over an empty directory two
consecutive creates both write index 1 and the second overwrites the first,
leaving a single entry holding only the second content. -/
theorem c2_consecutive_creates_overwrite :
    (create_playbook (create_playbook (PlaybookManager.init []) ("a")) ("b")).files
      = [(1, "b")] ∧
    (create_playbook (PlaybookManager.init []) ("a")).count = 0 :=
  ⟨by decide, rfl⟩

/-! ## C3 — derived work-type expression -/

/-- C3: the generator's derived work-type (作业) expression is exactly the
deterministic function of the sheet name and the resolved date columns that
the specification describes: `distinguish_work_type` coincides with
`workTypeSpec`, the rule transcribed from the spec's words, on every
normalized list and sheet name. -/
theorem c3_work_type_rule (normalized : List Normalized) (sheet_name : String) :
    distinguish_work_type normalized sheet_name = workTypeSpec normalized sheet_name := by
  unfold distinguish_work_type workTypeSpec work_type_by_dates
  by_cases ha : containsSub sheet_name "入离职" = true <;>
    by_cases hb : (containsSub sheet_name "离职" = true ∨
      containsSub sheet_name "减员" = true) <;>
    by_cases hc : (containsSub sheet_name "入职" = true ∨
      containsSub sheet_name "增员" = true) <;>
    by_cases hj : (normalized.any (fun n => n.1 = "入职日期" ∧ n.2.1.isSome) = true) <;>
    by_cases hl : (normalized.any (fun n => n.1 = "离职日期" ∧ n.2.1.isSome) = true) <;>
    simp only [ha, hb, hc, hj, hl, eq_self_iff_true, not_true, not_false_iff,
      if_true, if_false, true_and, and_true, false_and, and_false, if_pos, if_neg,
      not_false_eq_true, iff_true, iff_false] <;>
    simp [ha, hb, hc, hj, hl]

/-! ## C4 — idempotence of header cleaning -/

/-- C4 counterexample: cleaning is not idempotent.  For the header `a ( b`,
bracket removal (step 3) runs after whitespace collapsing (step 2) and glues
the two single spaces around the bracket into a double space, which a second
clean collapses further. -/
theorem c4_clean_not_idempotent :
    advanced_clean_text (("a ( b").data) = ("a  b").data ∧
    advanced_clean_text (advanced_clean_text (("a ( b").data)) = ("a b").data ∧
    advanced_clean_text (advanced_clean_text (("a ( b").data))
      ≠ advanced_clean_text (("a ( b").data) := by
  refine ⟨by decide, by decide, by decide⟩

/-! ## C7 — code-fence stripping -/

/-- C7 counterexample: the claim states the submitted query equals `t` itself
whenever `t` is not wrapped in a code fence.  `"```sqlABCD"` is wrapped in no
code fence (every fenced text has a newline as its seventh character), yet
`_run_sql` still slices it to `t[7:-3]`, so the submitted query differs from
`t`. -/
theorem c7_prefix_only_strip_mangles :
    (∀ b : List Char, fenceWrap b ≠ ("```sqlABCD").data) ∧
    stripFence (("```sqlABCD").data) ≠ ("```sqlABCD").data := by
  constructor
  · intro b h
    have h7 : (fenceWrap b).take 7 = (("```sqlABCD").data).take 7 := by rw [h]
    have hl : (fenceWrap b).take 7 = fenceOpener := by
      have hw : fenceWrap b = fenceOpener ++ (b ++ ("```").data) := by
        simp [fenceWrap, List.append_assoc]
      rw [hw]
      rfl
    rw [hl] at h7
    exact absurd h7 (by decide)
  · decide

/-- C7 amended: the submitted query equals the fence body exactly when the
transformation is wrapped in a code fence, and equals the transformation
itself when it does not *begin with* the opening fence marker (the code tests
only the prefix; a text beginning with the opener but not properly fenced
still loses 7 leading and 3 trailing characters, per the counterexample). -/
theorem c7_fence_strip_amended :
    (∀ body : List Char, stripFence (fenceWrap body) = body) ∧
    (∀ t : List Char, ("```sql").data.isPrefixOf t = false → stripFence t = t) := by
  constructor
  · intro body
    have h1 : fenceWrap body = fenceOpener ++ (body ++ ("```").data) := by
      simp [fenceWrap, List.append_assoc]
    have hc : ("```sql").data.isPrefixOf (fenceOpener ++ (body ++ ("```").data)) = true := rfl
    have hd : List.drop 7 (fenceOpener ++ (body ++ ("```").data)) = body ++ ("```").data := rfl
    have hopen : fenceOpener.length = 7 := rfl
    have hclose : (("```").data).length = 3 := rfl
    have hlen : (fenceOpener ++ (body ++ ("```").data)).length - 10 = body.length := by
      simp only [List.length_append, hopen, hclose]
      omega
    unfold stripFence
    rw [h1, hc, if_pos rfl, hd, hlen, List.take_left]
  · intro t h
    unfold stripFence
    rw [h]
    simp

/-- C7 witness: the amended theorem applied at a fenced and an unfenced
concrete transformation text. -/
theorem c7_fence_strip_amended_witness :
    stripFence (fenceWrap (("SELECT 1 FROM df").data)) = ("SELECT 1 FROM df").data ∧
    stripFence (("SELECT 2 FROM df").data) = ("SELECT 2 FROM df").data :=
  ⟨c7_fence_strip_amended.1 _, c7_fence_strip_amended.2 _ (by decide)⟩

/-! ## C8 — date post-processing -/

/-- A column name ending with `日期` does not end with `月`. -/
theorem endsRi_not_yue (n : String) (h : endsRi n = true) : endsYue n = false := by
  unfold endsRi at h
  unfold endsYue
  rw [decide_eq_true_eq] at h
  have h1 : n.data.reverse.take 1 = ['期'] := by
    have h2 := congrArg (List.take 1) h
    simpa [List.take_take] using h2
  rw [h1]
  decide

/-- C8: the post-processing pass applied after execution — `_fix_date` followed
by `_fix_ym` — reformats exactly the `日期`-suffixed columns with the date
parse and the `月`-suffixed columns with the month parse, passes the original
value through whenever the best-effort parse fails (the `Option.getD`
fallback; totality of the embedding reflects that the bare `except` never
re-raises), and leaves every other column untouched: the composition equals
`postProcessSpec`, the one-pass description transcribed from the claim. -/
theorem c8_date_postprocessing {α : Type} (parseD parseM : α → Option α)
    (table : List (String × List α)) :
    fix_ym parseM (fix_date parseD table) = postProcessSpec parseD parseM table := by
  unfold fix_ym fix_date postProcessSpec
  rw [List.map_map]
  apply List.map_congr_left
  intro col _
  by_cases hri : endsRi col.1 = true
  · have hyue := endsRi_not_yue col.1 hri
    simp [Function.comp, hri, hyue]
  · by_cases hyue : endsYue col.1 = true <;> simp [Function.comp, hri, hyue]

/-! ## C10 — structure of the generated SELECT list -/

/-- C10: for every normalized match list over the standard schema (its target
names equal the schema's header list, in order), the `select_columns` list
built by `make_sql` consists of (1) the derived work-type expression first —
independently of where `作业` sits in the schema, since the loop skips it —
followed by (2) one item per remaining standard header in schema order, where
(3) a target with no matched input header is emitted as `null` aliased to its
standard name, (4) so is — by the `if input_header:` truthiness test — a
target matched to the empty-string header, while (5) a target matched to a
non-empty input header is emitted as that input column aliased to its
standard name; and the emitted query is `SELECT` of exactly these items
joined by commas against `df`. -/
theorem c10_select_structure (normalized : List Normalized) (stdH : List String)
    (sheet_name : String) (hnames : normalized.map (fun nz => nz.1) = stdH) :
    select_columns normalized sheet_name
        = distinguish_work_type normalized sheet_name ::
          (normalized.filter (fun nz => ¬ nz.1 = "作业")).map sqlItemFor
    ∧ ((normalized.filter (fun nz => ¬ nz.1 = "作业")).map (fun nz => nz.1))
        = stdH.filter (fun s => ¬ s = "作业")
    ∧ (∀ nz ∈ normalized, nz.2.1 = none →
        sqlItemFor nz = "null as \"" ++ nz.1 ++ "\"")
    ∧ (∀ nz ∈ normalized, nz.2.1 = some "" →
        sqlItemFor nz = "null as \"" ++ nz.1 ++ "\"")
    ∧ (∀ nz ∈ normalized, ∀ ih, nz.2.1 = some ih → ¬ ih = "" →
        sqlItemFor nz = "\"" ++ ih ++ "\" as \"" ++ nz.1 ++ "\"")
    ∧ make_sql normalized sheet_name
        = "SELECT " ++ String.intercalate ","
            (select_columns normalized sheet_name) ++ " FROM df" := by
  refine ⟨rfl, ?_, ?_, ?_, ?_, rfl⟩
  · rw [← hnames, List.filter_map]
    rfl
  · intro nz _ hnone
    unfold sqlItemFor
    rw [hnone]
  · intro nz _ hempty
    unfold sqlItemFor
    rw [hempty]
    show (if ("" : String) = "" then "null as \"" ++ nz.1 ++ "\""
        else "\"" ++ ("" : String) ++ "\" as \"" ++ nz.1 ++ "\"")
      = "null as \"" ++ nz.1 ++ "\""
    rw [if_pos rfl]
  · intro nz _ ih hsome hne
    unfold sqlItemFor
    rw [hsome]
    show (if ih = "" then "null as \"" ++ nz.1 ++ "\""
        else "\"" ++ ih ++ "\" as \"" ++ nz.1 ++ "\"")
      = "\"" ++ ih ++ "\" as \"" ++ nz.1 ++ "\""
    rw [if_neg hne]

/-- C10 witness: the structure theorem applied to a concrete normalized list
over the schema `[作业, 姓名, 入职日期, 离职日期]`, with `作业` in first
schema position yet skipped by the item loop, one target matched to a
non-empty header, one unmatched, and one matched to the falsy empty-string
header (emitted as `null` by the truthiness test). -/
theorem c10_select_structure_witness :
    select_columns
        [(("作业" : String), (none : Option String), (0 : ℚ)),
         (("姓名" : String), some ("名"), (9 : ℚ) / 10),
         (("入职日期" : String), (none : Option String), (0 : ℚ)),
         (("离职日期" : String), some (""), (0 : ℚ))] ("某表")
      = distinguish_work_type
          [(("作业" : String), (none : Option String), (0 : ℚ)),
           (("姓名" : String), some ("名"), (9 : ℚ) / 10),
           (("入职日期" : String), (none : Option String), (0 : ℚ)),
           (("离职日期" : String), some (""), (0 : ℚ))] ("某表") ::
        (([(("作业" : String), (none : Option String), (0 : ℚ)),
           (("姓名" : String), some ("名"), (9 : ℚ) / 10),
           (("入职日期" : String), (none : Option String), (0 : ℚ)),
           (("离职日期" : String), some (""), (0 : ℚ))] :
            List Normalized).filter (fun nz => ¬ nz.1 = "作业")).map sqlItemFor
    ∧ (([(("作业" : String), (none : Option String), (0 : ℚ)),
         (("姓名" : String), some ("名"), (9 : ℚ) / 10),
         (("入职日期" : String), (none : Option String), (0 : ℚ)),
         (("离职日期" : String), some (""), (0 : ℚ))] :
          List Normalized).filter (fun nz => ¬ nz.1 = "作业")).map (fun nz => nz.1)
        = (["作业", "姓名", "入职日期", "离职日期"] : List String).filter
            (fun s => ¬ s = "作业")
    ∧ sqlItemFor (("离职日期" : String), some (""), (0 : ℚ))
        = "null as \"" ++ "离职日期" ++ "\"" :=
  ⟨(c10_select_structure _ (["作业", "姓名", "入职日期", "离职日期"]) ("某表")
      (by decide)).1,
   (c10_select_structure _ (["作业", "姓名", "入职日期", "离职日期"]) ("某表")
      (by decide)).2.1,
   (c10_select_structure
      [(("作业" : String), (none : Option String), (0 : ℚ)),
       (("姓名" : String), some ("名"), (9 : ℚ) / 10),
       (("入职日期" : String), (none : Option String), (0 : ℚ)),
       (("离职日期" : String), some (""), (0 : ℚ))]
      (["作业", "姓名", "入职日期", "离职日期"]) ("某表")
      (by decide)).2.2.2.1
     (("离职日期" : String), some (""), (0 : ℚ)) (by decide) rfl⟩

/-! ## C4 — amended idempotence: auxiliary lemmas -/

theorem nrt_ws (c : Char) (h : isNRT c = true) : isPyWs c = true := by
  simp only [isNRT, decide_eq_true_eq] at h
  simp only [isPyWs, decide_eq_true_eq]
  omega

theorem cjk_not_ws (c : Char) (h : cjk c = true) : isPyWs c = false := by
  simp only [cjk, decide_eq_true_eq] at h
  simp only [isPyWs, decide_eq_false_iff_not]
  omega

theorem cjk_weakGood (c : Char) (h : cjk c = true) : weakGood c = true := by
  simp only [cjk, decide_eq_true_eq] at h
  simp only [weakGood, isNRT, isParenChar, isCircled, isSymbolChar, Bool.and_eq_true,
    Bool.not_eq_true', decide_eq_false_iff_not]
  omega

theorem space_weakGood : weakGood ' ' = true := by decide

theorem space_ws : isPyWs ' ' = true := by decide

theorem removable_not_cjk (c : Char) (h : removableChar c = true) : cjk c = false := by
  simp only [removableChar, isParenChar, isCircled, isSymbolChar, Bool.or_eq_true,
    decide_eq_true_eq] at h
  simp only [cjk, decide_eq_false_iff_not]
  omega

theorem removable_not_ws (c : Char) (h : removableChar c = true) : isPyWs c = false := by
  simp only [removableChar, isParenChar, isCircled, isSymbolChar, Bool.or_eq_true,
    decide_eq_true_eq] at h
  simp only [isPyWs, decide_eq_false_iff_not]
  omega

theorem ws_not_nrt (c : Char) (h : isPyWs c = false) : isNRT c = false := by
  by_contra hn
  rw [nrt_ws c (by simpa using hn)] at h
  exact absurd h (by simp)

theorem weakGood_spec (c : Char) (h : weakGood c = true) :
    isNRT c = false ∧ isParenChar c = false ∧ isCircled c = false ∧
      isSymbolChar c = false := by
  simpa [weakGood, Bool.and_eq_true, Bool.not_eq_true', and_assoc] using h

theorem not_removable_spec (c : Char) (h : removableChar c = false) :
    isParenChar c = false ∧ isCircled c = false ∧ isSymbolChar c = false := by
  simpa [removableChar, Bool.or_eq_false_iff, and_assoc] using h

theorem isEmpty_false_of_ne {l : List Char} (h : l ≠ []) : l.isEmpty = false := by
  cases l with
  | nil => exact absurd rfl h
  | cons a t => rfl

theorem collapseAux_mem (l : List Char) :
    ∀ (b : Bool) (c : Char), c ∈ collapseAux b l →
      c = ' ' ∨ (c ∈ l ∧ isPyWs c = false) := by
  induction l with
  | nil => intro b c h; simp [collapseAux] at h
  | cons d rest ih =>
    intro b c h
    simp only [collapseAux] at h
    by_cases hd : isPyWs d = true
    · rw [if_pos hd] at h
      cases b with
      | true =>
        rw [if_pos rfl] at h
        rcases ih true c h with h1 | ⟨h1, h2⟩
        · exact Or.inl h1
        · exact Or.inr ⟨List.mem_cons_of_mem d h1, h2⟩
      | false =>
        rw [if_neg (by simp)] at h
        rcases List.mem_cons.1 h with rfl | h1
        · exact Or.inl rfl
        · rcases ih true c h1 with h2 | ⟨h2, h3⟩
          · exact Or.inl h2
          · exact Or.inr ⟨List.mem_cons_of_mem d h2, h3⟩
    · rw [if_neg hd] at h
      rcases List.mem_cons.1 h with rfl | h1
      · exact Or.inr ⟨List.mem_cons_self _ _, by simpa using hd⟩
      · rcases ih false c h1 with h2 | ⟨h2, h3⟩
        · exact Or.inl h2
        · exact Or.inr ⟨List.mem_cons_of_mem d h2, h3⟩

theorem collapseAux_headNotWs (l : List Char) :
    headNotWs (collapseAux true l) = true := by
  induction l with
  | nil => rfl
  | cons d rest ih =>
    simp only [collapseAux]
    by_cases hd : isPyWs d = true
    · rw [if_pos hd]
      simpa using ih
    · rw [if_neg hd]
      simp [headNotWs, hd]

theorem collapseAux_noAdj (l : List Char) :
    ∀ b : Bool, noAdjWs (collapseAux b l) = true := by
  induction l with
  | nil => intro b; rfl
  | cons d rest ih =>
    intro b
    simp only [collapseAux]
    by_cases hd : isPyWs d = true
    · rw [if_pos hd]
      cases b with
      | true => simpa using ih true
      | false =>
        rw [if_neg (by simp)]
        simp only [noAdjWs, Bool.and_eq_true, Bool.or_eq_true]
        exact ⟨Or.inr (collapseAux_headNotWs rest), ih true⟩
    · rw [if_neg hd]
      simp only [noAdjWs, Bool.and_eq_true, Bool.or_eq_true]
      refine ⟨Or.inl (by simp [hd]), ih false⟩

theorem collapseAux_fix (l : List Char) :
    ∀ b : Bool, (∀ c ∈ l, isPyWs c = true → c = ' ') → noAdjWs l = true →
      (b = true → headNotWs l = true) → collapseAux b l = l := by
  induction l with
  | nil => intro b _ _ _; rfl
  | cons d rest ih =>
    intro b hws hadj hhd
    have hadj' : ((! isPyWs d) || headNotWs rest) = true ∧ noAdjWs rest = true := by
      simpa [noAdjWs, Bool.and_eq_true] using hadj
    simp only [collapseAux]
    by_cases hd : isPyWs d = true
    · have hd' : d = ' ' := hws d (List.mem_cons_self d rest) hd
      have hb : b = false := by
        cases b with
        | false => rfl
        | true =>
          have h1 := hhd rfl
          simp [headNotWs, hd] at h1
      subst hb
      rw [if_pos hd, if_neg (by simp)]
      have hrest : collapseAux true rest = rest := by
        apply ih true (fun c hc hw => hws c (List.mem_cons_of_mem d hc) hw) hadj'.2
        intro _
        rcases Bool.or_eq_true_iff.1 hadj'.1 with h1 | h1
        · rw [hd] at h1; exact absurd h1 (by simp)
        · exact h1
      rw [hrest, hd']
    · rw [if_neg hd]
      have hrest : collapseAux false rest = rest := by
        apply ih false (fun c hc hw => hws c (List.mem_cons_of_mem d hc) hw) hadj'.2
        intro h1
        exact absurd h1 (by simp)
      rw [hrest]

theorem collapseAux_no_ws (l : List Char) :
    ∀ b : Bool, (∀ c ∈ l, isPyWs c = false) → collapseAux b l = l := by
  induction l with
  | nil => intro b _; rfl
  | cons d rest ih =>
    intro b h
    simp only [collapseAux]
    rw [if_neg (by simp [h d (List.mem_cons_self d rest)])]
    rw [ih false (fun c hc => h c (List.mem_cons_of_mem d hc))]

theorem mem_space_collapse (l : List Char) (h : ∃ c ∈ l, isPyWs c = true) :
    ' ' ∈ collapseAux false l := by
  induction l with
  | nil => simp at h
  | cons d rest ih =>
    simp only [collapseAux]
    by_cases hd : isPyWs d = true
    · rw [if_pos hd, if_neg (by simp)]
      exact List.mem_cons_self ' ' _
    · rw [if_neg hd]
      obtain ⟨c, hc, hcw⟩ := h
      rcases List.mem_cons.1 hc with rfl | hc1
    

      · rw [hcw] at hd; exact absurd rfl hd
      · exact List.mem_cons_of_mem d (ih ⟨c, hc1, hcw⟩)

theorem collapse_ne_nil (l : List Char) (h : l ≠ []) : collapse l ≠ [] := by
  cases l with
  | nil => exact absurd rfl h
  | cons d rest =>
    unfold collapse
    simp only [collapseAux]
    by_cases hd : isPyWs d = true
    · rw [if_pos hd, if_neg (by simp)]; simp
    · rw [if_neg hd]; simp

theorem sub1_id (l : List Char) (h : ∀ c ∈ l, isNRT c = false) : sub1 l = l := by
  unfold sub1
  have h1 : ∀ c ∈ l, (if isNRT c then ' ' else c) = id c := by
    intro c hc
    simp [h c hc]
  rw [List.map_congr_left h1, List.map_id]

theorem sub1_mem (l : List Char) (c : Char) (h : c ∈ sub1 l) : c = ' ' ∨ c ∈ l := by
  unfold sub1 at h
  rcases List.mem_map.1 h with ⟨a, ha, rfl⟩
  by_cases hn : isNRT a = true
  · exact Or.inl (by simp [hn])
  · right
    simpa [hn] using ha

theorem sub1_has_ws (l : List Char) (c : Char) (hc : c ∈ l) (hw : isPyWs c = true) :
    ∃ d ∈ sub1 l, isPyWs d = true := by
  refine ⟨if isNRT c then ' ' else c, List.mem_map_of_mem _ hc, ?_⟩
  by_cases hn : isNRT c = true <;> simp [hn, hw] <;> decide

theorem cleanedCore_mem (l : List Char) (c : Char) (h : c ∈ cleanedCore l) :
    (c = ' ' ∨ (c ∈ l ∧ isPyWs c = false)) ∧ weakGood c = true := by
  unfold cleanedCore sub5 sub4 sub3 at h
  have h5 := List.mem_filter.1 h
  have h4 := List.mem_filter.1 h5.1
  have h3 := List.mem_filter.1 h4.1
  have hsym : isSymbolChar c = false := by simpa using h5.2
  have hcirc : isCircled c = false := by simpa using h4.2
  have hparen : isParenChar c = false := by simpa using h3.2
  rcases collapseAux_mem (sub1 l) false c h3.1 with hsp | ⟨hmem, hnw⟩
  · subst hsp
    exact ⟨Or.inl rfl, space_weakGood⟩
  · have hnrt : isNRT c = false := ws_not_nrt c hnw
    have hwg : weakGood c = true := by
      simp [weakGood, Bool.and_eq_true, Bool.not_eq_true', hnrt, hparen, hcirc, hsym]
    rcases sub1_mem l c hmem with rfl | hl
    · exact ⟨Or.inl rfl, hwg⟩
    · exact ⟨Or.inr ⟨hl, hnw⟩, hwg⟩

theorem cleanedCore_of_weakGood (l : List Char)
    (h : ∀ c ∈ l, weakGood c = true) : cleanedCore l = collapse l := by
  unfold cleanedCore
  have h1 : sub1 l = l := sub1_id l (fun c hc => (weakGood_spec c (h c hc)).1)
  rw [h1]
  have hcol : ∀ c ∈ collapse l, weakGood c = true := by
    intro c hc
    rcases collapseAux_mem l false c hc with rfl | ⟨hm, _⟩
    · exact space_weakGood
    · exact h c hm
  have h3 : sub3 (collapse l) = collapse l := by
    unfold sub3
    refine List.filter_eq_self.2 (fun c hc => ?_)
    simp [(weakGood_spec c (hcol c hc)).2.1]
  rw [h3]
  have h4 : sub4 (collapse l) = collapse l := by
    unfold sub4
    refine List.filter_eq_self.2 (fun c hc => ?_)
    simp [(weakGood_spec c (hcol c hc)).2.2.1]
  rw [h4]
  unfold sub5
  refine List.filter_eq_self.2 (fun c hc => ?_)
  simp [(weakGood_spec c (hcol c hc)).2.2.2]

theorem clean_eq_of_core_ne (l : List Char) (hne : l ≠ []) (hcc : cleanedCore l ≠ []) :
    advanced_clean_text l = cleanedCore l := by
  simp [advanced_clean_text, isEmpty_false_of_ne hne, isEmpty_false_of_ne hcc]

theorem clean_fix (l : List Char) (hne : l ≠ [])
    (hgood : ∀ c ∈ l, weakGood c = true)
    (hws : ∀ c ∈ l, isPyWs c = true → c = ' ')
    (hadj : noAdjWs l = true) : advanced_clean_text l = l := by
  have hcc : cleanedCore l = l := by
    rw [cleanedCore_of_weakGood l hgood]
    exact collapseAux_fix l false hws hadj (fun h => absurd h (by simp))
  rw [clean_eq_of_core_ne l hne (by rw [hcc]; exact hne), hcc]

theorem clean_eq_collapse (l : List Char) (hne : l ≠ [])
    (hgood : ∀ c ∈ l, weakGood c = true) :
    advanced_clean_text l = collapse l := by
  have hcc : cleanedCore l = collapse l := cleanedCore_of_weakGood l hgood
  rw [clean_eq_of_core_ne l hne (by rw [hcc]; exact collapse_ne_nil l hne), hcc]

theorem clean_clean_weakGood (l : List Char) (hne : l ≠ [])
    (hgood : ∀ c ∈ l, weakGood c = true) :
    advanced_clean_text (advanced_clean_text l) = advanced_clean_text l := by
  rw [clean_eq_collapse l hne hgood]
  apply clean_fix
  · exact collapse_ne_nil l hne
  · intro c hc
    rcases collapseAux_mem l false c hc with rfl | ⟨hm, _⟩
    · exact space_weakGood
    · exact hgood c hm
  · intro c hc hw
    rcases collapseAux_mem l false c hc with h | ⟨_, hnw⟩
    · exact h
    · rw [hw] at hnw
      exact absurd hnw (by simp)
  · exact collapseAux_noAdj l false

theorem noAdj_of_no_ws (l : List Char) (h : ∀ c ∈ l, isPyWs c = false) :
    noAdjWs l = true := by
  induction l with
  | nil => rfl
  | cons d rest ih =>
    simp only [noAdjWs, Bool.and_eq_true, Bool.or_eq_true]
    exact ⟨Or.inl (by simp [h d (List.mem_cons_self _ _)]),
      ih (fun c hc => h c (List.mem_cons_of_mem d hc))⟩

theorem cjkRunsAux_nil (l : List Char) (h : ∀ c ∈ l, cjk c = false) :
    cjkRunsAux [] l = [] := by
  induction l with
  | nil => rfl
  | cons d rest ih =>
    simp only [cjkRunsAux]
    rw [if_neg (by simp [h d (List.mem_cons_self _ _)])]
    simpa using ih (fun c hc => h c (List.mem_cons_of_mem d hc))

theorem cjkRunsAux_all_cjk (l : List Char) :
    ∀ (acc run : List Char), run ∈ cjkRunsAux acc l →
      (∀ c ∈ acc, cjk c = true) → (∀ c ∈ run, cjk c = true) ∧ run ≠ [] := by
  induction l with
  | nil =>
    intro acc run h hacc
    simp only [cjkRunsAux] at h
    by_cases ha : acc.isEmpty = true
    · rw [if_pos ha] at h
      simp at h
    · rw [if_neg ha] at h
      have hrun : run = acc.reverse := by simpa using h
      subst hrun
      refine ⟨fun c hc => hacc c (List.mem_reverse.1 hc), ?_⟩
      simp only [ne_eq, List.reverse_eq_nil_iff]
      intro hnil
      rw [hnil] at ha
      exact ha rfl
  | cons d rest ih =>
    intro acc run h hacc
    simp only [cjkRunsAux] at h
    by_cases hd : cjk d = true
    · rw [if_pos hd] at h
      refine ih (d :: acc) run h (fun c hc => ?_)
      rcases List.mem_cons.1 hc with rfl | hc1
      · exact hd
      · exact hacc c hc1
    · rw [if_neg hd] at h
      by_cases ha : acc.isEmpty = true
      · rw [if_pos ha] at h
        exact ih [] run h (by simp)
      · rw [if_neg ha] at h
        rcases List.mem_cons.1 h with rfl | h2
        · refine ⟨fun c hc => hacc c (List.mem_reverse.1 hc), ?_⟩
          simp only [ne_eq, List.reverse_eq_nil_iff]
          intro hnil
          rw [hnil] at ha
          exact ha rfl
        · exact ih [] run h2 (by simp)

theorem maxByLen_mem (rs : List (List Char)) :
    ∀ r : List Char, maxByLen r rs ∈ r :: rs := by
  induction rs with
  | nil => intro r; simp [maxByLen]
  | cons x xs ih =>
    intro r
    have step : maxByLen r (x :: xs) = maxByLen (if r.length < x.length then x else r) xs := by
      simp [maxByLen]
    rw [step]
    rcases List.mem_cons.1 (ih (if r.length < x.length then x else r)) with h | h
    · rw [h]
      by_cases hl : r.length < x.length
      · simp [hl]
      · simp [hl]
    · exact List.mem_cons_of_mem r (List.mem_cons_of_mem x h)

theorem core_empty_no_ws (l : List Char) (hcc : cleanedCore l = []) :
    ∀ c ∈ l, isPyWs c = false := by
  intro c hc
  by_contra h
  have hw : isPyWs c = true := by simpa using h
  have hsp : ' ' ∈ collapse (sub1 l) :=
    mem_space_collapse (sub1 l) (sub1_has_ws l c hc hw)
  have hmem : ' ' ∈ cleanedCore l := by
    unfold cleanedCore sub5 sub4 sub3
    refine List.mem_filter.2 ⟨List.mem_filter.2 ⟨List.mem_filter.2 ⟨hsp, ?_⟩, ?_⟩, ?_⟩ <;>
      decide
  rw [hcc] at hmem
  exact absurd hmem (List.not_mem_nil ' ')

theorem core_empty_removable (l : List Char) (hcc : cleanedCore l = []) :
    ∀ c ∈ l, removableChar c = true := by
  have hnws := core_empty_no_ws l hcc
  have hnnrt : ∀ c ∈ l, isNRT c = false := fun c hc => ws_not_nrt c (hnws c hc)
  have h1 : sub1 l = l := sub1_id l hnnrt
  have h2 : collapse l = l := collapseAux_no_ws l false hnws
  unfold cleanedCore at hcc
  rw [h1, h2] at hcc
  intro c hc
  by_contra h
  have hr : removableChar c = false := by simpa using h
  obtain ⟨hp, hci, hs⟩ := not_removable_spec c hr
  have hmem : c ∈ sub5 (sub4 (sub3 l)) := by
    unfold sub5 sub4 sub3
    refine List.mem_filter.2 ⟨List.mem_filter.2 ⟨List.mem_filter.2 ⟨hc, ?_⟩, ?_⟩, ?_⟩ <;>
      simp [hp, hci, hs]
  rw [hcc] at hmem
  exact absurd hmem (List.not_mem_nil c)

theorem clean_all_removable (t : List Char) (hne : t ≠ [])
    (hrm : ∀ c ∈ t, removableChar c = true) :
    advanced_clean_text t = t.take 20 := by
  have hnws : ∀ c ∈ t, isPyWs c = false := fun c hc => removable_not_ws c (hrm c hc)
  have hnnrt : ∀ c ∈ t, isNRT c = false := fun c hc => ws_not_nrt c (hnws c hc)
  have h1 : sub1 t = t := sub1_id t hnnrt
  have h2 : collapse t = t := collapseAux_no_ws t false hnws
  have hcc : cleanedCore t = [] := by
    unfold cleanedCore
    rw [h1, h2]
    unfold sub5
    rw [List.filter_eq_nil_iff.2 ?_]
    intro c hc
    have hc4 := List.mem_filter.1 hc
    have hc3 := List.mem_filter.1 hc4.1
    have hrc := hrm c hc3.1
    simp only [removableChar, Bool.or_eq_true] at hrc
    rcases hrc with (hrc | hrc) | hrc
    · rw [hrc] at hc3
      simpa using hc3.2
    · rw [hrc] at hc4
      simpa using hc4.2
    · simp [hrc]
  have hruns : cjkRuns t = [] :=
    cjkRunsAux_nil t (fun c hc => removable_not_cjk c (hrm c hc))
  unfold cjkRuns at hruns
  simp [advanced_clean_text, isEmpty_false_of_ne hne, hcc, cjkRuns, hruns]

/-- C4 amended: one application of `advanced_clean_text` is not idempotent
(see the counterexample), but the second application always reaches a fixpoint:
cleaning a cleaned-twice header changes nothing, for every raw header. -/
theorem c4_double_clean_fixpoint (l : List Char) :
    advanced_clean_text (advanced_clean_text (advanced_clean_text l))
      = advanced_clean_text (advanced_clean_text l) := by
  by_cases hne : l = []
  · subst hne
    rfl
  by_cases hcc : cleanedCore l = []
  · -- fallback branch: the cleaned text would be empty
    cases hr : cjkRuns l with
    | nil =>
      have ht : advanced_clean_text l = l.take 20 := by
        unfold cjkRuns at hr
        simp [advanced_clean_text, isEmpty_false_of_ne hne, hcc, cjkRuns, hr]
      have htne : l.take 20 ≠ [] := by
        cases l with
        | nil => exact absurd rfl hne
        | cons a t => simp
      have hsub : ∀ c ∈ l.take 20, removableChar c = true :=
        fun c hc => core_empty_removable l hcc c (List.take_subset 20 l hc)
      have hfix : advanced_clean_text (l.take 20) = l.take 20 := by
        rw [clean_all_removable (l.take 20) htne hsub, List.take_take]
        norm_num
      rw [ht, hfix, hfix]
    | cons r rs =>
      have ht : advanced_clean_text l = maxByLen r rs := by
        unfold cjkRuns at hr
        simp [advanced_clean_text, isEmpty_false_of_ne hne, hcc, cjkRuns, hr]
      have hmem : maxByLen r rs ∈ cjkRuns l := by
        rw [hr]
        exact maxByLen_mem rs r
      have hcjk := cjkRunsAux_all_cjk l [] (maxByLen r rs) hmem (by simp)
      have hfix : advanced_clean_text (maxByLen r rs) = maxByLen r rs := by
        apply clean_fix
        · exact hcjk.2
        · exact fun c hc => cjk_weakGood c (hcjk.1 c hc)
        · intro c hc hw
          rw [cjk_not_ws c (hcjk.1 c hc)] at hw
          exact absurd hw (by simp)
        · exact noAdj_of_no_ws _ (fun c hc => cjk_not_ws c (hcjk.1 c hc))
      rw [ht, hfix, hfix]
  · -- regular branch: the cleaned text is returned
    have hcl : advanced_clean_text l = cleanedCore l := clean_eq_of_core_ne l hne hcc
    rw [hcl]
    exact clean_clean_weakGood (cleanedCore l) hcc
      (fun c hc => (cleanedCore_mem l c hc).2)

/-! ## C9 — cooperative cancellation: auxiliary lemmas -/

theorem runUnits_nocancel (name : String) (mk : String → String) :
    ∀ (units : List String) (st : RunSt), st.aborted = false →
      runUnits cancelNever name mk units st =
        ({ events := st.events ++ unitsProgress mk units,
           time := st.time + units.length, aborted := false }, units) := by
  intro units
  induction units with
  | nil =>
    intro st h
    cases st with
    | mk ev t ab =>
      simp at h
      subst h
      simp [runUnits, unitsProgress]
  | cons u rest ih =>
    intro st h
    simp only [runUnits, pollCheck, cancelNever]
    rw [if_neg (by simp [h])]
    rw [ih _ (by simp [h])]
    simp [unitsProgress]
    omega

theorem filter_of_all {p : RunEvent → Bool} {l : List RunEvent}
    (h : l.all p = true) : l.filter p = l :=
  List.filter_eq_self.2 (fun a ha => List.all_eq_true.1 h a ha)

theorem unitsProgress_all (mk : String → String) (units : List String) :
    (unitsProgress mk units).all isProgressEv = true := by
  simp [unitsProgress, List.all_eq_true, isProgressEv]

theorem runUnits_cons_abort (cancel : Nat → Bool) (name : String)
    (mk : String → String) (u : String) (rest : List String) (st : RunSt)
    (hc : cancel st.time = true) :
    runUnits cancel name mk (u :: rest) st =
      ({ events := st.events ++ [RunEvent.cancelled name],
         time := st.time + 1, aborted := true }, []) := by
  simp [runUnits, pollCheck, hc]

theorem runUnits_cons_cont (cancel : Nat → Bool) (name : String)
    (mk : String → String) (u : String) (rest : List String) (st : RunSt)
    (h : st.aborted = false) (hc : cancel st.time = false) :
    runUnits cancel name mk (u :: rest) st =
      ((runUnits cancel name mk rest
          { st with time := st.time + 1,
                    events := st.events ++ [RunEvent.progress (mk u)] }).1,
       u :: (runUnits cancel name mk rest
          { st with time := st.time + 1,
                    events := st.events ++ [RunEvent.progress (mk u)] }).2) := by
  cases st with
  | mk ev t ab =>
    replace h : ab = false := h
    subst h
    replace hc : cancel t = false := hc
    rcases hres : runUnits cancel name mk rest
        { events := ev ++ [RunEvent.progress (mk u)], time := t + 1,
          aborted := false } with ⟨a, b⟩
    simp [runUnits, pollCheck, hc, hres]

theorem runUnits_sim (cancel : Nat → Bool) (name : String) (mk : String → String) :
    ∀ (units : List String) (st : RunSt), st.aborted = false →
      st.events.all isProgressEv = true →
      SimOut (runUnits cancel name mk units st)
        (runUnits cancelNever name mk units st) := by
  intro units
  induction units with
  | nil =>
    intro st h hp
    constructor
    · intro _
      exact ⟨rfl, by simpa [runUnits] using hp⟩
    · intro hab
      simp only [runUnits] at hab
      rw [h] at hab
      exact absurd hab (by simp)
  | cons u rest ih =>
    intro st h hp
    by_cases hc : cancel st.time = true
    · rw [runUnits_cons_abort cancel name mk u rest st hc,
        runUnits_nocancel name mk (u :: rest) st h]
      constructor
      · intro hab
        simp at hab
      · intro _
        constructor
        · exact ⟨name, st.events, rfl, hp⟩
        · simp only [List.filter_append]
          rw [filter_of_all hp, filter_of_all (unitsProgress_all mk (u :: rest))]
          have hone : List.filter isProgressEv [RunEvent.cancelled name] = [] := rfl
          rw [hone, List.append_nil]
          exact List.prefix_append _ _
    · have hc' : cancel st.time = false := by simpa using hc
      rw [runUnits_cons_cont cancel name mk u rest st h hc',
        runUnits_cons_cont cancelNever name mk u rest st h rfl]
      have hsub := ih
        { st with time := st.time + 1,
                  events := st.events ++ [RunEvent.progress (mk u)] }
        (by simp [h]) (by simp [List.all_append, hp, isProgressEv])
      constructor
      · intro hab
        obtain ⟨heq, hall⟩ := hsub.1 hab
        exact ⟨by rw [heq], hall⟩
      · intro hab
        obtain ⟨hdone, hpre⟩ := hsub.2 hab
        exact ⟨hdone, hpre⟩

theorem runStage_aborted (cancel : Nat → Bool) (name : String)
    (mk : String → String) (units : List String) (st : RunSt)
    (h : st.aborted = true) : runStage cancel name mk units st = (st, []) := by
  simp [runStage, h]

theorem runStage_cont (cancel : Nat → Bool) (name : String)
    (mk : String → String) (units : List String) (st : RunSt)
    (h : st.aborted = false) (hc : cancel st.time = false) :
    runStage cancel name mk units st =
      runUnits cancel name mk units { st with time := st.time + 1 } := by
  simp [runStage, pollCheck, h, hc]

theorem runStage_abort_now (cancel : Nat → Bool) (name : String)
    (mk : String → String) (units : List String) (st : RunSt)
    (h : st.aborted = false) (hc : cancel st.time = true) :
    runStage cancel name mk units st =
      ({ events := st.events ++ [RunEvent.cancelled name],
         time := st.time + 1, aborted := true }, []) := by
  simp [runStage, pollCheck, h, hc]

theorem runStage_nocancel (name : String) (mk : String → String)
    (units : List String) (st : RunSt) (h : st.aborted = false) :
    runStage cancelNever name mk units st =
      ({ events := st.events ++ unitsProgress mk units,
         time := st.time + 1 + units.length, aborted := false }, units) := by
  rw [runStage_cont cancelNever name mk units st h rfl,
    runUnits_nocancel name mk units { st with time := st.time + 1 } (by simp [h])]

theorem runStage_sim (cancel : Nat → Bool) (name : String) (mk : String → String)
    (units : List String) (st : RunSt) (h : st.aborted = false)
    (hp : st.events.all isProgressEv = true) :
    SimOut (runStage cancel name mk units st)
      (runStage cancelNever name mk units st) := by
  by_cases hc : cancel st.time = true
  · rw [runStage_abort_now cancel name mk units st h hc,
      runStage_nocancel name mk units st h]
    constructor
    · intro hab
      simp at hab
    · intro _
      constructor
      · exact ⟨name, st.events, rfl, hp⟩
      · simp only [List.filter_append]
        rw [filter_of_all hp, filter_of_all (unitsProgress_all mk units)]
        have hone : List.filter isProgressEv [RunEvent.cancelled name] = [] := rfl
        rw [hone, List.append_nil]
        exact List.prefix_append _ _
  · have hc' : cancel st.time = false := by simpa using hc
    rw [runStage_cont cancel name mk units st h hc',
      runStage_cont cancelNever name mk units st h rfl]
    exact runUnits_sim cancel name mk units { st with time := st.time + 1 }
      (by simp [h]) (by simpa using hp)

theorem runSources_aborted (cancel : Nat → Bool) :
    ∀ (stages : List SourceStage) (st : RunSt) (acc : List String),
      st.aborted = true → runSources cancel stages st acc = (st, acc) := by
  intro stages
  induction stages with
  | nil => intro st acc _; rfl
  | cons s rest ih =>
    intro st acc h
    simp only [runSources, runStage_aborted cancel s.name _ s.units st h]
    rw [List.append_nil]
    exact ih st acc h

theorem runSources_nocancel_ext :
    ∀ (stages : List SourceStage) (st : RunSt) (acc : List String),
      st.aborted = false →
      (runSources cancelNever stages st acc).1.aborted = false ∧
      ∃ ev, (runSources cancelNever stages st acc).1.events = st.events ++ ev ∧
        ev.all isProgressEv = true := by
  intro stages
  induction stages with
  | nil =>
    intro st acc h
    exact ⟨h, [], (List.append_nil _).symm, rfl⟩
  | cons s rest ih =>
    intro st acc h
    simp only [runSources, runStage_nocancel s.name _ s.units st h]
    obtain ⟨hab, ev, hev, hevp⟩ := ih
      { events := st.events ++ unitsProgress (fun u => "读取" ++ u) s.units,
        time := st.time + 1 + s.units.length, aborted := false } (acc ++ s.units) rfl
    refine ⟨hab, unitsProgress (fun u => "读取" ++ u) s.units ++ ev, ?_, ?_⟩
    · rw [hev]
      simp [List.append_assoc]
    · simp [List.all_append, unitsProgress_all, hevp]

theorem runSources_sim (cancel : Nat → Bool) :
    ∀ (stages : List SourceStage) (st : RunSt) (acc : List String),
      st.aborted = false → st.events.all isProgressEv = true →
      SimOut (runSources cancel stages st acc)
        (runSources cancelNever stages st acc) := by
  intro stages
  induction stages with
  | nil =>
    intro st acc h hp
    constructor
    · intro _
      exact ⟨rfl, by simpa [runSources] using hp⟩
    · intro hab
      simp only [runSources] at hab
      rw [h] at hab
      exact absurd hab (by simp)
  | cons s rest ih =>
    intro st acc h hp
    have hsim := runStage_sim cancel s.name (fun u => "读取" ++ u) s.units st h hp
    by_cases hab : (runStage cancel s.name (fun u => "读取" ++ u) s.units st).1.aborted = true
    · obtain ⟨hdone, hpre⟩ := hsim.2 hab
      simp only [runSources]
      rw [runSources_aborted cancel rest _ _ hab]
      constructor
      · intro hf
        rw [hab] at hf
        exact absurd hf (by simp)
      · intro _
        refine ⟨hdone, ?_⟩
        have hq2 : (runStage cancelNever s.name (fun u => "读取" ++ u) s.units st).1.aborted
            = false := by
          rw [runStage_nocancel s.name _ s.units st h]
        obtain ⟨_, ev, hev, _⟩ := runSources_nocancel_ext rest
          (runStage cancelNever s.name (fun u => "读取" ++ u) s.units st).1
          (acc ++ (runStage cancelNever s.name (fun u => "读取" ++ u) s.units st).2) hq2
        rw [hev, List.filter_append]
        exact hpre.trans (List.prefix_append _ _)
    · have hf : (runStage cancel s.name (fun u => "读取" ++ u) s.units st).1.aborted
          = false := by simpa using hab
      obtain ⟨heq, hall⟩ := hsim.1 hf
      simp only [runSources]
      rw [heq]
      exact ih (runStage cancelNever s.name (fun u => "读取" ++ u) s.units st).1
        (acc ++ (runStage cancelNever s.name (fun u => "读取" ++ u) s.units st).2)
        (by rw [← heq]; exact hf) (by rw [← heq]; exact hall)

theorem runExtractors_aborted (cancel : Nat → Bool) (srcResults : List String) :
    ∀ (stages : List FnStage) (st : RunSt) (acc : List String),
      st.aborted = true →
      runExtractors cancel srcResults stages st acc = (st, acc) := by
  intro stages
  induction stages with
  | nil => intro st acc _; rfl
  | cons s rest ih =>
    intro st acc h
    simp only [runExtractors, runStage_aborted cancel s.name _ _ st h]
    rw [List.append_nil]
    exact ih st acc h

theorem runExtractors_nocancel_ext (srcResults : List String) :
    ∀ (stages : List FnStage) (st : RunSt) (acc : List String),
      st.aborted = false →
      (runExtractors cancelNever srcResults stages st acc).1.aborted = false ∧
      ∃ ev, (runExtractors cancelNever srcResults stages st acc).1.events
          = st.events ++ ev ∧ ev.all isProgressEv = true := by
  intro stages
  induction stages with
  | nil =>
    intro st acc h
    exact ⟨h, [], (List.append_nil _).symm, rfl⟩
  | cons s rest ih =>
    intro st acc h
    simp only [runExtractors,
      runStage_nocancel s.name _ (s.run (srcResults.filter s.verify)) st h]
    obtain ⟨hab, ev, hev, hevp⟩ := ih
      { events := st.events ++
          unitsProgress (fun u => "提取" ++ u) (s.run (srcResults.filter s.verify)),
        time := st.time + 1 + (s.run (srcResults.filter s.verify)).length,
        aborted := false }
      (acc ++ s.run (srcResults.filter s.verify)) rfl
    refine ⟨hab,
      unitsProgress (fun u => "提取" ++ u) (s.run (srcResults.filter s.verify)) ++ ev,
      ?_, ?_⟩
    · rw [hev]
      simp [List.append_assoc]
    · simp [List.all_append, unitsProgress_all, hevp]

theorem runExtractors_sim (cancel : Nat → Bool) (srcResults : List String) :
    ∀ (stages : List FnStage) (st : RunSt) (acc : List String),
      st.aborted = false → st.events.all isProgressEv = true →
      SimOut (runExtractors cancel srcResults stages st acc)
        (runExtractors cancelNever srcResults stages st acc) := by
  intro stages
  induction stages with
  | nil =>
    intro st acc h hp
    constructor
    · intro _
      exact ⟨rfl, by simpa [runExtractors] using hp⟩
    · intro hab
      simp only [runExtractors] at hab
      rw [h] at hab
      exact absurd hab (by simp)
  | cons s rest ih =>
    intro st acc h hp
    have hsim := runStage_sim cancel s.name (fun u => "提取" ++ u)
      (s.run (srcResults.filter s.verify)) st h hp
    by_cases hab : (runStage cancel s.name (fun u => "提取" ++ u)
        (s.run (srcResults.filter s.verify)) st).1.aborted = true
    · obtain ⟨hdone, hpre⟩ := hsim.2 hab
      simp only [runExtractors]
      rw [runExtractors_aborted cancel srcResults rest _ _ hab]
      constructor
      · intro hf
        rw [hab] at hf
        exact absurd hf (by simp)
      · intro _
        refine ⟨hdone, ?_⟩
        have hq2 : (runStage cancelNever s.name (fun u => "提取" ++ u)
            (s.run (srcResults.filter s.verify)) st).1.aborted = false := by
          rw [runStage_nocancel s.name _ _ st h]
        obtain ⟨_, ev, hev, _⟩ := runExtractors_nocancel_ext srcResults rest
          (runStage cancelNever s.name (fun u => "提取" ++ u)
            (s.run (srcResults.filter s.verify)) st).1
          (acc ++ (runStage cancelNever s.name (fun u => "提取" ++ u)
            (s.run (srcResults.filter s.verify)) st).2) hq2
        rw [hev, List.filter_append]
        exact hpre.trans (List.prefix_append _ _)
    · have hf : (runStage cancel s.name (fun u => "提取" ++ u)
          (s.run (srcResults.filter s.verify)) st).1.aborted = false := by
        simpa using hab
      obtain ⟨heq, hall⟩ := hsim.1 hf
      simp only [runExtractors]
      rw [heq]
      exact ih (runStage cancelNever s.name (fun u => "提取" ++ u)
          (s.run (srcResults.filter s.verify)) st).1
        (acc ++ (runStage cancelNever s.name (fun u => "提取" ++ u)
          (s.run (srcResults.filter s.verify)) st).2)
        (by rw [← heq]; exact hf) (by rw [← heq]; exact hall)

theorem runDests_aborted (cancel : Nat → Bool) (extResults : List String) :
    ∀ (stages : List FnStage) (st : RunSt), st.aborted = true →
      runDests cancel extResults stages st = st := by
  intro stages
  induction stages with
  | nil => intro st _; rfl
  | cons s rest ih =>
    intro st h
    simp only [runDests, runStage_aborted cancel s.name _ _ st h]
    exact ih st h

theorem runDests_nocancel_ext (extResults : List String) :
    ∀ (stages : List FnStage) (st : RunSt), st.aborted = false →
      (runDests cancelNever extResults stages st).aborted = false ∧
      ∃ ev, (runDests cancelNever extResults stages st).events = st.events ++ ev ∧
        ev.all isProgressEv = true := by
  intro stages
  induction stages with
  | nil =>
    intro st h
    exact ⟨h, [], (List.append_nil _).symm, rfl⟩
  | cons s rest ih =>
    intro st h
    simp only [runDests, runStage_nocancel s.name _ (s.run extResults) st h]
    obtain ⟨hab, ev, hev, hevp⟩ := ih
      { events := st.events ++ unitsProgress (fun u => u ++ "处理完成") (s.run extResults),
        time := st.time + 1 + (s.run extResults).length, aborted := false } rfl
    refine ⟨hab, unitsProgress (fun u => u ++ "处理完成") (s.run extResults) ++ ev, ?_, ?_⟩
    · rw [hev]
      simp [List.append_assoc]
    · simp [List.all_append, unitsProgress_all, hevp]

theorem runDests_sim (cancel : Nat → Bool) (extResults : List String) :
    ∀ (stages : List FnStage) (st : RunSt), st.aborted = false →
      st.events.all isProgressEv = true →
      SimSt (runDests cancel extResults stages st)
        (runDests cancelNever extResults stages st) := by
  intro stages
  induction stages with
  | nil =>
    intro st h hp
    constructor
    · intro _
      exact ⟨rfl, by simpa [runDests] using hp⟩
    · intro hab
      simp only [runDests] at hab
      rw [h] at hab
      exact absurd hab (by simp)
  | cons s rest ih =>
    intro st h hp
    have hsim := runStage_sim cancel s.name (fun u => u ++ "处理完成")
      (s.run extResults) st h hp
    by_cases hab : (runStage cancel s.name (fun u => u ++ "处理完成")
        (s.run extResults) st).1.aborted = true
    · obtain ⟨hdone, hpre⟩ := hsim.2 hab
      simp only [runDests]
      rw [runDests_aborted cancel extResults rest _ hab]
      constructor
      · intro hf
        rw [hab] at hf
        exact absurd hf (by simp)
      · intro _
        refine ⟨hdone, ?_⟩
        have hq2 : (runStage cancelNever s.name (fun u => u ++ "处理完成")
            (s.run extResults) st).1.aborted = false := by
          rw [runStage_nocancel s.name _ _ st h]
        obtain ⟨_, ev, hev, _⟩ := runDests_nocancel_ext extResults rest
          (runStage cancelNever s.name (fun u => u ++ "处理完成")
            (s.run extResults) st).1 hq2
        rw [hev, List.filter_append]
        exact hpre.trans (List.prefix_append _ _)
    · have hf : (runStage cancel s.name (fun u => u ++ "处理完成")
          (s.run extResults) st).1.aborted = false := by simpa using hab
      obtain ⟨heq, hall⟩ := hsim.1 hf
      simp only [runDests]
      rw [heq]
      exact ih (runStage cancelNever s.name (fun u => u ++ "处理完成")
          (s.run extResults) st).1
        (by rw [← heq]; exact hf) (by rw [← heq]; exact hall)

theorem executorRun_sim (sources : List SourceStage) (extractors dests : List FnStage)
    (cancel : Nat → Bool) :
    SimSt (executorRun sources extractors dests cancel)
      (executorRun sources extractors dests cancelNever) := by
  have hsimS := runSources_sim cancel sources
    { events := [], time := 0, aborted := false } [] rfl rfl
  rcases hs1 : runSources cancel sources
      { events := [], time := 0, aborted := false } [] with ⟨s1, r1⟩
  rcases hs2 : runSources cancelNever sources
      { events := [], time := 0, aborted := false } [] with ⟨s2, r2⟩
  rw [hs1, hs2] at hsimS
  have hs2ext := runSources_nocancel_ext sources
    { events := [], time := 0, aborted := false } [] rfl
  rw [hs2] at hs2ext
  obtain ⟨hs2ab, evS, hevS, hevSp⟩ := hs2ext
  simp only [executorRun, hs1, hs2]
  by_cases habS : s1.aborted = true
  · rw [runExtractors_aborted cancel r1 extractors s1 [] habS]
    show SimSt (runDests cancel [] dests s1)
      (runDests cancelNever (runExtractors cancelNever r2 extractors s2 []).2 dests
        (runExtractors cancelNever r2 extractors s2 []).1)
    rw [runDests_aborted cancel [] dests s1 habS]
    obtain ⟨hdone, hpre⟩ := hsimS.2 habS
    constructor
    · intro hf
      rw [habS] at hf
      exact absurd hf (by simp)
    · intro _
      refine ⟨hdone, ?_⟩
      obtain ⟨he2ab, evE, hevE, _⟩ :=
        runExtractors_nocancel_ext r2 extractors s2 [] hs2ab
      obtain ⟨_, evD, hevD, _⟩ := runDests_nocancel_ext
        (runExtractors cancelNever r2 extractors s2 []).2 dests
        (runExtractors cancelNever r2 extractors s2 []).1 he2ab
      rw [hevD, hevE, List.filter_append, List.filter_append]
      exact hpre.trans ((List.prefix_append _ _).trans (List.prefix_append _ _))
  · have hfS : s1.aborted = false := by simpa using habS
    obtain ⟨heqS, hallS⟩ := hsimS.1 hfS
    have h12 : s1 = s2 := congrArg Prod.fst heqS
    have hr12 : r1 = r2 := congrArg Prod.snd heqS
    subst h12
    subst hr12
    have hsimE := runExtractors_sim cancel r1 extractors s1 [] hfS hallS
    rcases he1 : runExtractors cancel r1 extractors s1 [] with ⟨e1, q1⟩
    rcases he2 : runExtractors cancelNever r1 extractors s1 [] with ⟨e2, q2⟩
    rw [he1, he2] at hsimE
    have he2ext := runExtractors_nocancel_ext r1 extractors s1 [] hfS
    rw [he2] at he2ext
    obtain ⟨he2ab, evE, hevE, _⟩ := he2ext
    by_cases habE : e1.aborted = true
    · rw [runDests_aborted cancel q1 dests e1 habE]
      obtain ⟨hdone, hpre⟩ := hsimE.2 habE
      constructor
      · intro hf
        rw [habE] at hf
        exact absurd hf (by simp)
      · intro _
        refine ⟨hdone, ?_⟩
        obtain ⟨_, evD, hevD, _⟩ := runDests_nocancel_ext q2 dests e2 he2ab
        rw [hevD, List.filter_append]
        exact hpre.trans (List.prefix_append _ _)
    · have hfE : e1.aborted = false := by simpa using habE
      obtain ⟨heqE, hallE⟩ := hsimE.1 hfE
      have he1e2 : e1 = e2 ∧ q1 = q2 := ⟨congrArg Prod.fst heqE, congrArg Prod.snd heqE⟩
      obtain ⟨h12, hq12⟩ := he1e2
      subst h12
      subst hq12
      exact runDests_sim cancel q1 dests e1 hfE hallE

theorem executorRun_nocancel_props (sources : List SourceStage)
    (extractors dests : List FnStage) :
    (executorRun sources extractors dests cancelNever).aborted = false ∧
    (executorRun sources extractors dests cancelNever).events.all isProgressEv
      = true := by
  rcases hs : runSources cancelNever sources
      { events := [], time := 0, aborted := false } [] with ⟨s2, r2⟩
  have hse := runSources_nocancel_ext sources
    { events := [], time := 0, aborted := false } [] rfl
  rw [hs] at hse
  obtain ⟨hsab, evS, hevS, hpS⟩ := hse
  rcases he : runExtractors cancelNever r2 extractors s2 [] with ⟨e2, q2⟩
  have hee := runExtractors_nocancel_ext r2 extractors s2 [] hsab
  rw [he] at hee
  obtain ⟨heab, evE, hevE, hpE⟩ := hee
  obtain ⟨hdab, evD, hevD, hpD⟩ := runDests_nocancel_ext q2 dests e2 heab
  simp only [executorRun, hs, he]
  refine ⟨hdab, ?_⟩
  rw [hevD, hevE, hevS]
  simp [List.all_append, hpS, hpE, hpD]

/-- C9: once the cooperative cancellation signal is observed by `Executor.run`
— which polls it between pipeline units only, each unit being atomic in this
embedding — the run yields no further progress events and returns: for every
stage configuration and every signal trace, (1) every yielded event except
possibly the final one is a progress event, so nothing follows the single
cancellation notice; (2) at most one non-progress (cancellation) event is ever
yielded; (3) the progress events of the run form a prefix of the progress
events of the same run with the signal never set — the cancelled run completes
a prefix of the work, emits no partial output for the in-flight item beyond
that prefix, and skips the remaining units; and (4) the uncancelled run yields
progress events only. -/
theorem c9_cancellation (sources : List SourceStage)
    (extractors dests : List FnStage) (cancel : Nat → Bool) :
    (executorRun sources extractors dests cancel).events.dropLast.all isProgressEv
        = true ∧
    (executorRun sources extractors dests cancel).events.countP
        (fun e => ! isProgressEv e) ≤ 1 ∧
    (executorRun sources extractors dests cancel).events.filter isProgressEv
      <+: (executorRun sources extractors dests cancelNever).events.filter
            isProgressEv ∧
    (executorRun sources extractors dests cancelNever).events.all isProgressEv
        = true := by
  have hsim := executorRun_sim sources extractors dests cancel
  have hfull := executorRun_nocancel_props sources extractors dests
  by_cases hab : (executorRun sources extractors dests cancel).aborted = true
  · obtain ⟨⟨nm, pre, hev, hpre⟩, hprefix⟩ := hsim.2 hab
    refine ⟨?_, ?_, hprefix, hfull.2⟩
    · rw [hev, List.dropLast_concat]
      exact hpre
    · rw [hev, List.countP_append]
      have h1 : pre.countP (fun e => ! isProgressEv e) = 0 := by
        rw [List.countP_eq_zero]
        intro a ha
        simp [List.all_eq_true.1 hpre a ha]
      rw [h1]
      simp [List.countP_cons, isProgressEv]
  · have hf : (executorRun sources extractors dests cancel).aborted = false := by
      simpa using hab
    obtain ⟨heq, hall⟩ := hsim.1 hf
    refine ⟨?_, ?_, ?_, hfull.2⟩
    · rw [List.all_eq_true]
      intro a ha
      exact List.all_eq_true.1 hall a ((List.dropLast_sublist _).subset ha)
    · have h0 : (executorRun sources extractors dests cancel).events.countP
          (fun e => ! isProgressEv e) = 0 := by
        rw [List.countP_eq_zero]
        intro a ha
        simp [List.all_eq_true.1 hall a ha]
      rw [h0]
      norm_num
    · rw [heq]

/-! ## C5 — matcher invariants: counterexample and auxiliary lemmas -/

/-- C5 counterexample: the resolved match output can assign the *same* input
header to two different target names when that header is the empty string.
`_contextual_reassessment` groups duplicate matches with `if match[1]:`, and
Python's truthiness treats `""` like `None`, so two empty-named input columns
(indices 0 and 1) keep their assignments to the two distinct targets `A` and
`B`. -/
theorem c5_empty_header_double_assigned :
    normalize_headers (["A", "B"]) (["", ""]) (fun _ _ => 1) (1 : ℚ)
        = [(("A" : String), some (""), (1 : ℚ)), (("B" : String), some (""), (1 : ℚ))]
    ∧ ("A" : String) ≠ ("B" : String) :=
  ⟨by decide, by decide⟩

theorem maxByConf_name (h : String) :
    ∀ (gs : List Normalized) (g : Normalized), g.1 = h → (∀ y ∈ gs, y.1 = h) →
      (maxByConf g gs).1 = h := by
  intro gs
  induction gs with
  | nil => intro g hg _; exact hg
  | cons x xs ih =>
    intro g hg hall
    unfold maxByConf at *
    simp only [List.foldl_cons]
    by_cases hc : g.2.2 < x.2.2
    · rw [if_pos hc]
      exact ih x (hall x (List.mem_cons_self _ _))
        (fun y hy => hall y (List.mem_cons_of_mem x hy))
    · rw [if_neg hc]
      exact ih g hg (fun y hy => hall y (List.mem_cons_of_mem x hy))

theorem maxByConf_mem : ∀ (gs : List Normalized) (g : Normalized),
    maxByConf g gs ∈ g :: gs := by
  intro gs
  induction gs with
  | nil => intro g; simp [maxByConf]
  | cons x xs ih =>
    intro g
    unfold maxByConf
    simp only [List.foldl_cons]
    by_cases hc : g.2.2 < x.2.2
    · rw [if_pos hc]
      rcases List.mem_cons.1 (ih x) with hh | hh
      · rw [show maxByConf x xs = List.foldl
            (fun best y => if best.2.2 < y.2.2 then y else best) x xs from rfl] at hh
        rw [hh]
        exact List.mem_cons_of_mem g (List.mem_cons_self _ _)
      · exact List.mem_cons_of_mem g (List.mem_cons_of_mem x hh)
    · rw [if_neg hc]
      rcases List.mem_cons.1 (ih g) with hh | hh
      · rw [show maxByConf g xs = List.foldl
            (fun best y => if best.2.2 < y.2.2 then y else best) g xs from rfl] at hh
        rw [hh]
        exact List.mem_cons_self _ _
      · exact List.mem_cons_of_mem g (List.mem_cons_of_mem x hh)

theorem two_le_countP {α : Type} (p : α → Bool) :
    ∀ (l : List α) (a b : α), a ∈ l → b ∈ l → a ≠ b → p a = true → p b = true →
      2 ≤ l.countP p := by
  intro l
  induction l with
  | nil => intro a b ha _ _ _ _; exact absurd ha (List.not_mem_nil a)
  | cons x xs ih =>
    intro a b ha hb hab hpa hpb
    rw [List.countP_cons]
    rcases List.mem_cons.1 ha with rfl | ha1
    · have hb1 : b ∈ xs := by
        rcases List.mem_cons.1 hb with rfl | hb1
        · exact absurd rfl hab
        · exact hb1
      have h1 : 0 < xs.countP p := List.countP_pos.2 ⟨b, hb1, hpb⟩
      rw [hpa]
      show 2 ≤ xs.countP p + 1
      omega
    · rcases List.mem_cons.1 hb with rfl | hb1
      · have h1 : 0 < xs.countP p := List.countP_pos.2 ⟨a, ha1, hpa⟩
        rw [hpb]
        show 2 ≤ xs.countP p + 1
        omega
      · have h1 := ih a b ha1 hb1 hab hpa hpb
        omega

theorem phase1_countP (l : List Normalized) (h : String) (hne : h ≠ "") :
    ∀ (rest : List Normalized) (i : Nat),
      (bestPos l h < i →
        (phase1Go l i rest).countP (fun nz => nz.2.1 = some h) = 0) ∧
      (phase1Go l i rest).countP (fun nz => nz.2.1 = some h) ≤ 1 := by
  intro rest
  induction rest with
  | nil => intro i; simp [phase1Go]
  | cons nz rest ih =>
    intro i
    simp only [phase1Go, List.countP_cons]
    have hhead : ∀ hcount : (p1entry l i nz).2.1 = some h,
        i = bestPos l h := by
      intro hcount
      unfold p1entry at hcount
      by_cases h1 : nz.2.1 = none ∨ nz.2.1 = some ""
      · rw [if_pos h1] at hcount
        rcases h1 with h1 | h1
        · rw [h1] at hcount
          exact absurd hcount (by simp)
        · rw [h1] at hcount
          have h2 : h = "" := by simpa using hcount.symm
          exact absurd h2 hne
      · rw [if_neg h1] at hcount
        by_cases hbest : i = bestPos l (nz.2.1.getD "")
        · rw [if_pos hbest] at hcount
          rw [hcount] at hbest
          simpa using hbest
        · rw [if_neg hbest] at hcount
          exact absurd hcount (by simp)
    constructor
    · intro hlt
      have htail : (phase1Go l (i + 1) rest).countP (fun nz => nz.2.1 = some h) = 0 :=
        (ih (i + 1)).1 (by omega)
      rw [htail]
      by_cases hc : (p1entry l i nz).2.1 = some h
      · exact absurd (hhead hc) (by omega)
      · simp [hc]
    · by_cases hc : (p1entry l i nz).2.1 = some h
      · have hi := hhead hc
        have htail : (phase1Go l (i + 1) rest).countP (fun nz => nz.2.1 = some h) = 0 :=
          (ih (i + 1)).1 (by omega)
        rw [htail]
        simp [hc]
      · have htail := (ih (i + 1)).2
        simp [hc]
        omega

theorem getD_set_ne {α : Type} (l : List (Option α)) (i j : Nat) (v : Option α)
    (h : i ≠ j) : (l.set i v).getD j none = l.getD j none := by
  rw [List.getD_eq_getElem?_getD, List.getD_eq_getElem?_getD, List.getElem?_set_ne h]

theorem getD_set_self {α : Type} (l : List (Option α)) (i : Nat) (v : Option α)
    (h : i < l.length) : (l.set i v).getD i none = v := by
  rw [List.getD_eq_getElem?_getD, List.getElem?_set_self h]
  rfl

theorem greedy_fold_spec (stdH inpH : List String) (score : Nat → Nat → ℚ)
    (minConf : ℚ) :
    ∀ (cl : List (ℚ × Nat × Nat)) (st : GreedySt),
      (∀ c ∈ cl, c.2.1 < stdH.length ∧ c.2.2 < inpH.length ∧
        c.1 = score c.2.1 c.2.2 ∧ minConf ≤ c.1) →
      st.result.length = stdH.length →
      (∀ i nz, st.result.getD i none = some nz →
        nz.1 = stdH.getD i "" ∧ nz.2.1.isSome = true ∧
        ∃ j, j < inpH.length ∧ minConf ≤ score i j) →
      (cl.foldl (greedyStep stdH inpH) st).result.length = stdH.length ∧
      (∀ i nz, (cl.foldl (greedyStep stdH inpH) st).result.getD i none = some nz →
        nz.1 = stdH.getD i "" ∧ nz.2.1.isSome = true ∧
        ∃ j, j < inpH.length ∧ minConf ≤ score i j) := by
  intro cl
  induction cl with
  | nil => intro st _ hlen hinv; exact ⟨hlen, hinv⟩
  | cons c rest ih =>
    intro st hcl hlen hinv
    rw [List.foldl_cons]
    obtain ⟨hc1, hc2, hc3, hc4⟩ := hcl c (List.mem_cons_self _ _)
    refine ih (greedyStep stdH inpH st c)
      (fun d hd => hcl d (List.mem_cons_of_mem c hd)) ?_ ?_
    · unfold greedyStep
      by_cases hskip : c.2.1 ∈ st.asgStd ∨ c.2.2 ∈ st.asgInp
      · rw [if_pos hskip]
        exact hlen
      · rw [if_neg hskip]
        simp [hlen]
    · unfold greedyStep
      by_cases hskip : c.2.1 ∈ st.asgStd ∨ c.2.2 ∈ st.asgInp
      · rw [if_pos hskip]
        exact hinv
      · rw [if_neg hskip]
        intro i nz hget
        by_cases hi : c.2.1 = i
        · subst hi
          rw [getD_set_self _ _ _ (by rw [hlen]; exact hc1)] at hget
          have hnz : nz = (stdH.getD c.2.1 "", some (inpH.getD c.2.2 ""), c.1) := by
            simpa using hget.symm
          subst hnz
          exact ⟨rfl, rfl, c.2.2, hc2, by rw [← hc3]; exact hc4⟩
        · rw [getD_set_ne _ _ _ _ hi] at hget
          exact hinv i nz hget

theorem fillNone_get (stdH : List String) (res : List (Option Normalized))
    (i : Nat) (hi : i < stdH.length) :
    (fillNone stdH res)[i]? = some (match res.getD i none with
      | some nz => nz
      | none => (stdH.getD i "", none, 0)) := by
  unfold fillNone
  rw [List.getElem?_map]
  simp [List.getElem?_range, hi]

theorem fillNone_length (stdH : List String) (res : List (Option Normalized)) :
    (fillNone stdH res).length = stdH.length := by
  simp [fillNone]

theorem mem_insertDesc (c : ℚ × Nat × Nat) :
    ∀ (l : List (ℚ × Nat × Nat)) (x : ℚ × Nat × Nat),
      x ∈ insertDesc c l ↔ x = c ∨ x ∈ l := by
  intro l
  induction l with
  | nil => intro x; simp [insertDesc]
  | cons d rest ih =>
    intro x
    unfold insertDesc
    by_cases hc : d.1 ≤ c.1
    · rw [if_pos hc]
      simp [List.mem_cons, or_comm, or_assoc, or_left_comm]
    · rw [if_neg hc]
      simp only [List.mem_cons, ih]
      tauto

theorem mem_sortDesc : ∀ (l : List (ℚ × Nat × Nat)) (x : ℚ × Nat × Nat),
    x ∈ sortDesc l ↔ x ∈ l := by
  intro l
  induction l with
  | nil => intro x; simp [sortDesc]
  | cons c rest ih =>
    intro x
    unfold sortDesc
    rw [mem_insertDesc, ih]
    simp [List.mem_cons]

theorem mem_buildCandidates (n m : Nat) (score : Nat → Nat → ℚ) (minConf : ℚ)
    (c : ℚ × Nat × Nat) :
    c ∈ buildCandidates n m score minConf ↔
      c.2.1 < n ∧ c.2.2 < m ∧ c.1 = score c.2.1 c.2.2 ∧
        minConf ≤ score c.2.1 c.2.2 := by
  rcases c with ⟨s, i, j⟩
  simp only [buildCandidates, List.mem_flatMap, List.mem_filterMap, List.mem_range]
  constructor
  · rintro ⟨a, ha, b, hb, hopt⟩
    by_cases hle : minConf ≤ score a b
    · rw [if_pos hle] at hopt
      have h1 : score a b = s ∧ a = i ∧ b = j := by
        simpa [Prod.ext_iff] using hopt
      obtain ⟨rfl, rfl, rfl⟩ := h1
      exact ⟨ha, hb, rfl, hle⟩
    · rw [if_neg hle] at hopt
      exact absurd hopt (by simp)
  · rintro ⟨hi, hj, rfl, hle⟩
    exact ⟨i, hi, j, hj, by rw [if_pos hle]⟩

theorem semantic_similarity_entry (stdH inpH : List String)
    (score : Nat → Nat → ℚ) (minConf : ℚ) (i : Nat) (hi : i < stdH.length) :
    (∃ nz, (semantic_similarity stdH inpH score minConf)[i]? = some nz ∧
      nz.1 = stdH.getD i "" ∧
      (nz.2.1.isSome = true → ∃ j, j < inpH.length ∧ minConf ≤ score i j)) ∧
    ((∀ j, j < inpH.length → score i j < minConf) →
      (semantic_similarity stdH inpH score minConf)[i]?
        = some (stdH.getD i "", none, 0)) := by
  have hcand : ∀ c ∈ sortDesc (buildCandidates stdH.length inpH.length score minConf),
      c.2.1 < stdH.length ∧ c.2.2 < inpH.length ∧ c.1 = score c.2.1 c.2.2 ∧
        minConf ≤ c.1 := by
    intro c hc
    rw [mem_sortDesc] at hc
    obtain ⟨h1, h2, h3, h4⟩ := (mem_buildCandidates _ _ _ _ c).1 hc
    exact ⟨h1, h2, h3, by rw [h3]; exact h4⟩
  have hfold := greedy_fold_spec stdH inpH score minConf
    (sortDesc (buildCandidates stdH.length inpH.length score minConf))
    { asgStd := [], asgInp := [], result := List.replicate stdH.length none }
    hcand (by simp)
    (by
      intro k nz hget
      rw [List.getD_eq_getElem?_getD] at hget
      rcases Nat.lt_or_ge k stdH.length with hk | hk
      · rw [List.getElem?_replicate, if_pos hk] at hget
        exact absurd hget (by simp)
      · rw [List.getElem?_replicate, if_neg (by omega)] at hget
        exact absurd hget (by simp))
  constructor
  · unfold semantic_similarity
    rw [fillNone_get stdH _ i hi]
    cases hget : (List.foldl (greedyStep stdH inpH)
        { asgStd := [], asgInp := [], result := List.replicate stdH.length none }
        (sortDesc (buildCandidates stdH.length inpH.length score minConf))).result.getD
          i none with
    | none => exact ⟨(stdH.getD i "", none, 0), rfl, rfl, by simp⟩
    | some nz =>
      obtain ⟨hname, hsome, hex⟩ := hfold.2 i nz hget
      exact ⟨nz, rfl, hname, fun _ => hex⟩
  · intro hrow
    unfold semantic_similarity
    rw [fillNone_get stdH _ i hi]
    cases hget : (List.foldl (greedyStep stdH inpH)
        { asgStd := [], asgInp := [], result := List.replicate stdH.length none }
        (sortDesc (buildCandidates stdH.length inpH.length score minConf))).result.getD
          i none with
    | none => rfl
    | some nz =>
      obtain ⟨_, _, j, hj, hge⟩ := hfold.2 i nz hget
      exact absurd hge (not_le.2 (hrow j hj))

theorem semantic_similarity_length (stdH inpH : List String)
    (score : Nat → Nat → ℚ) (minConf : ℚ) :
    (semantic_similarity stdH inpH score minConf).length = stdH.length := by
  unfold semantic_similarity
  exact fillNone_length _ _

theorem p1entry_name (l : List Normalized) (i : Nat) (nz : Normalized) :
    (p1entry l i nz).1 = nz.1 := by
  unfold p1entry
  split_ifs <;> rfl

theorem p1entry_none (l : List Normalized) (i : Nat) (nz : Normalized)
    (h : nz.2.1 = none) : p1entry l i nz = nz := by
  unfold p1entry
  rw [if_pos (Or.inl h)]

theorem phase1Go_get (l : List Normalized) :
    ∀ (rest : List Normalized) (i0 k : Nat),
      (phase1Go l i0 rest)[k]? = (rest[k]?).map (fun nz => p1entry l (i0 + k) nz) := by
  intro rest
  induction rest with
  | nil => intro i0 k; simp [phase1Go]
  | cons nz rest ih =>
    intro i0 k
    cases k with
    | zero => simp [phase1Go]
    | succ k =>
      simp only [phase1Go, List.getElem?_cons_succ]
      rw [ih (i0 + 1) k]
      have harith : i0 + 1 + k = i0 + (k + 1) := by omega
      rw [harith]

theorem phase1Go_length (l : List Normalized) :
    ∀ (rest : List Normalized) (i0 : Nat),
      (phase1Go l i0 rest).length = rest.length := by
  intro rest
  induction rest with
  | nil => intro i0; rfl
  | cons nz rest ih =>
    intro i0
    simp [phase1Go, ih (i0 + 1)]

theorem reassess_entry_name (m : List Normalized) (h : String) :
    (match m.filter (fun nz : Normalized => nz.1 = h) with
      | [] => ((h : String), (none : Option String), (0 : ℚ))
      | g :: gs => maxByConf g gs).1 = h := by
  cases hfl : m.filter (fun nz : Normalized => nz.1 = h) with
  | nil => rfl
  | cons g gs =>
    have hmem : ∀ y ∈ g :: gs, y.1 = h := by
      intro y hy
      rw [← hfl] at hy
      have := (List.mem_filter.1 hy).2
      simpa using this
    exact maxByConf_name h gs g (hmem g (List.mem_cons_self _ _))
      (fun y hy => hmem y (List.mem_cons_of_mem g hy))

theorem reassess_entry_mem (m : List Normalized) (h : String)
    (g : Normalized) (gs : List Normalized)
    (hfl : m.filter (fun nz => nz.1 = h) = g :: gs) :
    maxByConf g gs ∈ m := by
  have hm := maxByConf_mem gs g
  rw [← hfl] at hm
  exact (List.mem_filter.1 hm).1

theorem reassess_get (stdH : List String) (l0 : List Normalized) (i : Nat)
    (hi : i < stdH.length) :
    (contextual_reassessment stdH l0)[i]? = some (
      match ((phase1Go l0 0 l0).filter (fun nz => ¬ nz.2.2 = 0)).filter
          (fun nz => nz.1 = stdH.getD i "") with
      | [] => ((stdH.getD i "" : String), (none : Option String), (0 : ℚ))
      | g :: gs => maxByConf g gs) := by
  have hgd : stdH.getD i "" = stdH.get ⟨i, hi⟩ := by
    rw [List.getD_eq_getElem?_getD, List.getElem?_eq_getElem hi]
    rfl
  unfold contextual_reassessment
  rw [List.getElem?_map, List.getElem?_eq_getElem hi]
  rw [hgd]
  rfl

theorem nodup_getD_inj (stdH : List String) (hnd : stdH.Nodup) (i k : Nat)
    (hi : i < stdH.length) (hk : k < stdH.length)
    (heq : stdH.getD k "" = stdH.getD i "") : k = i := by
  have hgi : stdH.getD i "" = stdH.get ⟨i, hi⟩ := by
    rw [List.getD_eq_getElem?_getD, List.getElem?_eq_getElem hi]
    rfl
  have hgk : stdH.getD k "" = stdH.get ⟨k, hk⟩ := by
    rw [List.getD_eq_getElem?_getD, List.getElem?_eq_getElem hk]
    rfl
  rw [hgi, hgk] at heq
  exact (List.Nodup.getElem_inj_iff hnd).1 heq

/-- C5 amended: for every target schema with distinct names and every input
header list, the resolved match output (`normalize` = greedy assignment
followed by contextual reassessment) contains exactly one candidate per
target schema entry, in schema order (part 1); no *non-empty* input header is
assigned to two different target names — the empty-string header escapes the
reassessment dedup through Python truthiness, per the counterexample
(part 2); and a target whose entire score row is below the confidence floor
is returned with `input_header = None` and confidence 0 (part 3). -/
theorem c5_match_invariants (stdH inpH : List String) (score : Nat → Nat → ℚ)
    (minConf : ℚ) (hnd : stdH.Nodup) :
    (normalize_headers stdH inpH score minConf).map (fun nz => nz.1) = stdH
    ∧ (∀ (i j : Nat) (nzi nzj : Normalized) (h : String), i ≠ j →
        (normalize_headers stdH inpH score minConf)[i]? = some nzi →
        (normalize_headers stdH inpH score minConf)[j]? = some nzj →
        nzi.2.1 = some h → h ≠ "" → nzj.2.1 ≠ some h)
    ∧ (∀ i, i < stdH.length → (∀ j, j < inpH.length → score i j < minConf) →
        (normalize_headers stdH inpH score minConf)[i]?
          = some (stdH.getD i "", none, 0)) := by
  have hlen0 : (semantic_similarity stdH inpH score minConf).length = stdH.length :=
    semantic_similarity_length stdH inpH score minConf
  have houtlen : (normalize_headers stdH inpH score minConf).length = stdH.length := by
    unfold normalize_headers contextual_reassessment
    simp
  -- every entry of the output at a valid index is the reassessed group entry
  have hget : ∀ i, i < stdH.length →
      (normalize_headers stdH inpH score minConf)[i]? = some (
        match ((phase1Go (semantic_similarity stdH inpH score minConf) 0
              (semantic_similarity stdH inpH score minConf)).filter
                (fun nz => ¬ nz.2.2 = 0)).filter
            (fun nz => nz.1 = stdH.getD i "") with
        | [] => ((stdH.getD i "" : String), (none : Option String), (0 : ℚ))
        | g :: gs => maxByConf g gs) := by
    intro i hi
    unfold normalize_headers
    exact reassess_get stdH (semantic_similarity stdH inpH score minConf) i hi
  -- the names of phase-1 entries are the schema names, positionally
  have hnames : ∀ k nz,
      (phase1Go (semantic_similarity stdH inpH score minConf) 0
        (semantic_similarity stdH inpH score minConf))[k]? = some nz →
      k < stdH.length ∧ nz.1 = stdH.getD k "" := by
    intro k nz hk
    rw [phase1Go_get _ _ 0 k] at hk
    rcases hl0 : (semantic_similarity stdH inpH score minConf)[k]? with _ | nz0
    · rw [hl0] at hk
      exact absurd hk (by simp)
    · rw [hl0] at hk
      have hk2 : nz = p1entry (semantic_similarity stdH inpH score minConf)
          (0 + k) nz0 := by simpa using hk.symm
      have hklt : k < stdH.length := by
        rw [← hlen0]
        exact (List.getElem?_eq_some_iff.1 hl0).1
      obtain ⟨⟨nz', hnz', hname', _⟩, _⟩ :=
        semantic_similarity_entry stdH inpH score minConf k hklt
      rw [hl0] at hnz'
      have : nz0 = nz' := by simpa using hnz'
      subst this
      rw [hk2, p1entry_name]
      exact ⟨hklt, hname'⟩
  refine ⟨?_, ?_, ?_⟩
  · -- part 1: one candidate per schema entry, in order
    apply List.ext_getElem?
    intro i
    rcases Nat.lt_or_ge i stdH.length with hi | hi
    · rw [List.getElem?_map, hget i hi, List.getElem?_eq_getElem hi]
      have hn := reassess_entry_name
        ((phase1Go (semantic_similarity stdH inpH score minConf) 0
          (semantic_similarity stdH inpH score minConf)).filter
            (fun nz => ¬ nz.2.2 = 0)) (stdH.getD i "")
      have hgd : stdH.getD i "" = stdH.get ⟨i, hi⟩ := by
        rw [List.getD_eq_getElem?_getD, List.getElem?_eq_getElem hi]
        rfl
      have hmap : ∀ (o : Normalized),
          (some o).map (fun nz : Normalized => nz.1) = some o.1 := fun o => rfl
      rw [hmap, hn, hgd]
      rfl
    · have h1 : ((normalize_headers stdH inpH score minConf).map
          (fun nz => nz.1)).length ≤ i := by
        rw [List.length_map, houtlen]
        omega
      have h2 : stdH.length ≤ i := by omega
      rw [List.getElem?_eq_none h1, List.getElem?_eq_none h2]
  · -- part 2: no non-empty input header on two targets
    intro i j nzi nzj h hij hgi hgj hsome hne hcontra
    have hi : i < stdH.length := by
      rw [← houtlen]
      exact (List.getElem?_eq_some_iff.1 hgi).1
    have hj : j < stdH.length := by
      rw [← houtlen]
      exact (List.getElem?_eq_some_iff.1 hgj).1
    rw [hget i hi] at hgi
    rw [hget j hj] at hgj
    -- the two entries have distinct names, hence are distinct values
    have hni : nzi.1 = stdH.getD i "" := by
      rw [← Option.some.inj hgi]
      exact reassess_entry_name _ _
    have hnj : nzj.1 = stdH.getD j "" := by
      rw [← Option.some.inj hgj]
      exact reassess_entry_name _ _
    have hnames_ne : nzi.1 ≠ nzj.1 := by
      rw [hni, hnj]
      intro hcc
      exact hij (nodup_getD_inj stdH hnd j i hj hi hcc)
    have hval_ne : nzi ≠ nzj := fun hcc => hnames_ne (by rw [hcc])
    -- both entries belong to the filtered phase-1 list
    have hmem : ∀ (k : Nat) (nzk : Normalized), k < stdH.length →
        nzk.2.1 = some h →
        some nzk = some (
          match ((phase1Go (semantic_similarity stdH inpH score minConf) 0
                (semantic_similarity stdH inpH score minConf)).filter
                  (fun nz => ¬ nz.2.2 = 0)).filter
              (fun nz => nz.1 = stdH.getD k "") with
          | [] => ((stdH.getD k "" : String), (none : Option String), (0 : ℚ))
          | g :: gs => maxByConf g gs) →
        nzk ∈ (phase1Go (semantic_similarity stdH inpH score minConf) 0
          (semantic_similarity stdH inpH score minConf)).filter
            (fun nz => ¬ nz.2.2 = 0) := by
      intro k nzk _ hsomek hgetk
      cases hfl : ((phase1Go (semantic_similarity stdH inpH score minConf) 0
            (semantic_similarity stdH inpH score minConf)).filter
              (fun nz => ¬ nz.2.2 = 0)).filter
          (fun nz => nz.1 = stdH.getD k "") with
      | nil =>
        rw [hfl] at hgetk
        have : nzk = ((stdH.getD k "" : String), (none : Option String), (0 : ℚ)) :=
          Option.some.inj hgetk
        rw [this] at hsomek
        exact absurd hsomek (by simp)
      | cons g gs =>
        rw [hfl] at hgetk
        have : nzk = maxByConf g gs := Option.some.inj hgetk
        rw [this]
        exact reassess_entry_mem _ _ g gs hfl
    have hmi := hmem i nzi hi hsome hgi.symm
    have hmj := hmem j nzj hj hcontra hgj.symm
    -- two distinct entries matched to the same non-empty header: impossible
    have h2 := two_le_countP (fun nz => nz.2.1 = some h) _ nzi nzj hmi hmj hval_ne
      (by simp [hsome]) (by simp [hcontra])
    have hle1 := (phase1_countP (semantic_similarity stdH inpH score minConf) h hne
      (semantic_similarity stdH inpH score minConf) 0).2
    have hsubset := List.Sublist.countP_le (p := fun nz => nz.2.1 = some h)
      (List.filter_sublist (l := phase1Go (semantic_similarity stdH inpH score minConf)
        0 (semantic_similarity stdH inpH score minConf))
        (p := fun nz => ¬ nz.2.2 = 0))
    omega
  · -- part 3: a fully-below-threshold row is returned unmatched
    intro i hi hrow
    have hblank := (semantic_similarity_entry stdH inpH score minConf i hi).2 hrow
    rw [hget i hi]
    have hempty : ((phase1Go (semantic_similarity stdH inpH score minConf) 0
          (semantic_similarity stdH inpH score minConf)).filter
            (fun nz => ¬ nz.2.2 = 0)).filter
        (fun nz => nz.1 = stdH.getD i "") = [] := by
      rw [List.filter_eq_nil_iff]
      intro nz hnz
      obtain ⟨hnzl1, hnzconf⟩ := List.mem_filter.1 hnz
      obtain ⟨k, hk⟩ := List.mem_iff_getElem?.1 hnzl1
      obtain ⟨hklt, hkname⟩ := hnames k nz hk
      simp only [decide_eq_true_eq]
      intro hctr
      have hki : k = i := nodup_getD_inj stdH hnd i k hi hklt (by rw [← hkname, hctr])
      subst hki
      rw [phase1Go_get _ _ 0 k, hblank] at hk
      have hnz_eq : nz = p1entry (semantic_similarity stdH inpH score minConf)
          (0 + k) (stdH.getD k "", none, 0) := by simpa using hk.symm
      rw [p1entry_none _ _ _ rfl] at hnz_eq
      rw [hnz_eq] at hnzconf
      simp at hnzconf
    rw [hempty]

/-- C5 witness: the amended invariants at a concrete schema `[A, B]` with one
input header and a score matrix entirely below the floor: the output has one
candidate per target in order, and each target is returned unmatched. -/
theorem c5_match_invariants_witness :
    (normalize_headers (["A", "B"]) (["x"]) (fun _ _ => 0) (1 : ℚ)).map
        (fun nz => nz.1) = ["A", "B"]
    ∧ (normalize_headers (["A", "B"]) (["x"]) (fun _ _ => 0) (1 : ℚ))[0]?
        = some (("A" : String), (none : Option String), (0 : ℚ)) :=
  ⟨(c5_match_invariants (["A", "B"]) (["x"]) (fun _ _ => 0) (1 : ℚ) (by decide)).1,
   (c5_match_invariants (["A", "B"]) (["x"]) (fun _ _ => 0) (1 : ℚ) (by decide)).2.2
     0 (by decide) (fun j hj => show (0 : ℚ) < 1 by decide)⟩


/-! ## C6 — raising `min_confidence` never adds matches

The candidate list at the higher floor `t2` is the `t1` list with the
sub-`t2` scores filtered out; the stable descending sort commutes with that
filter, so the `t2` sorted list is exactly the `t2`-or-better *prefix* of the
`t1` sorted list.  The greedy loop therefore reaches, after the `t2` run's
candidates, the very state the `t2` run ends in, and the remaining low-score
candidates can only fill still-unassigned slots — never unset one. -/

theorem inner_filterMap_threshold (score : Nat → Nat → ℚ) (t1 t2 : ℚ)
    (h : t1 ≤ t2) (iv : Nat) : ∀ (js : List Nat),
    ((js.filterMap (fun j => if t1 ≤ score iv j then some (score iv j, iv, j)
        else none)).filter (fun c => t2 ≤ c.1))
      = js.filterMap (fun j => if t2 ≤ score iv j then some (score iv j, iv, j)
          else none) := by
  intro js
  induction js with
  | nil => rfl
  | cons j rest ih =>
    by_cases h1 : t1 ≤ score iv j
    · by_cases h2 : t2 ≤ score iv j
      · simp only [List.filterMap_cons, if_pos h1, if_pos h2, List.filter_cons]
        rw [if_pos (by simpa using h2), ih]
      · simp only [List.filterMap_cons, if_pos h1, if_neg h2, List.filter_cons]
        rw [if_neg (by simpa using h2)]
        exact ih
    · have h2 : ¬ t2 ≤ score iv j := fun hc => h1 (h.trans hc)
      simp only [List.filterMap_cons, if_neg h1, if_neg h2]
      exact ih

theorem buildCandidates_threshold (n m : Nat) (score : Nat → Nat → ℚ)
    (t1 t2 : ℚ) (h : t1 ≤ t2) :
    buildCandidates n m score t2
      = (buildCandidates n m score t1).filter (fun c => t2 ≤ c.1) := by
  unfold buildCandidates
  rw [List.filter_flatMap]
  apply congrArg
  funext i
  exact (inner_filterMap_threshold score t1 t2 h i (List.range m)).symm

theorem insertDesc_sorted (c : ℚ × Nat × Nat) :
    ∀ (l : List (ℚ × Nat × Nat)), l.Pairwise (fun a b => b.1 ≤ a.1) →
      (insertDesc c l).Pairwise (fun a b => b.1 ≤ a.1) := by
  intro l
  induction l with
  | nil => intro _; simp [insertDesc]
  | cons d rest ih =>
    intro hp
    rw [List.pairwise_cons] at hp
    obtain ⟨hd, hrest⟩ := hp
    unfold insertDesc
    by_cases hc : d.1 ≤ c.1
    · rw [if_pos hc]
      refine List.Pairwise.cons ?_ (List.Pairwise.cons hd hrest)
      intro b hb
      rcases List.mem_cons.1 hb with rfl | hbr
      · exact hc
      · exact (hd b hbr).trans hc
    · rw [if_neg hc]
      refine List.Pairwise.cons ?_ (ih hrest)
      intro b hb
      rcases (mem_insertDesc c rest b).1 hb with rfl | hbr
      · exact le_of_lt (lt_of_not_le hc)
      · exact hd b hbr

theorem sortDesc_sorted : ∀ (l : List (ℚ × Nat × Nat)),
    (sortDesc l).Pairwise (fun a b => b.1 ≤ a.1) := by
  intro l
  induction l with
  | nil => simp [sortDesc]
  | cons c rest ih => exact insertDesc_sorted c (sortDesc rest) ih

theorem insertDesc_all_le (c : ℚ × Nat × Nat) (l : List (ℚ × Nat × Nat))
    (h : ∀ x ∈ l, x.1 ≤ c.1) : insertDesc c l = c :: l := by
  cases l with
  | nil => rfl
  | cons d rest =>
    unfold insertDesc
    rw [if_pos (h d (List.mem_cons_self d rest))]

theorem filter_insertDesc_pos (p : ℚ × Nat × Nat → Bool) (c : ℚ × Nat × Nat)
    (hc : p c = true) :
    ∀ (l : List (ℚ × Nat × Nat)), l.Pairwise (fun a b => b.1 ≤ a.1) →
      (insertDesc c l).filter p = insertDesc c (l.filter p) := by
  intro l
  induction l with
  | nil => intro _; simp [insertDesc, List.filter_cons, hc]
  | cons d rest ih =>
    intro hp
    rw [List.pairwise_cons] at hp
    obtain ⟨hd, hrest⟩ := hp
    by_cases hdc : d.1 ≤ c.1
    · have h1 : insertDesc c (d :: rest) = c :: d :: rest := by
        unfold insertDesc
        rw [if_pos hdc]
      have hall : ∀ x ∈ (d :: rest).filter p, x.1 ≤ c.1 := by
        intro x hx
        rcases List.mem_cons.1 (List.mem_of_mem_filter hx) with rfl | hxr
        · exact hdc
        · exact (hd x hxr).trans hdc
      rw [h1, insertDesc_all_le c _ hall, List.filter_cons, if_pos hc]
    · have h1 : insertDesc c (d :: rest) = d :: insertDesc c rest := by
        have he : insertDesc c (d :: rest)
            = if d.1 ≤ c.1 then c :: d :: rest else d :: insertDesc c rest := rfl
        rw [he, if_neg hdc]
      rw [h1, List.filter_cons]
      by_cases hdp : p d = true
      · rw [if_pos hdp, ih hrest]
        have h2 : (d :: rest).filter p = d :: rest.filter p := by
          rw [List.filter_cons, if_pos hdp]
        rw [h2]
        have h3 : insertDesc c (d :: rest.filter p)
            = d :: insertDesc c (rest.filter p) := by
          have he : insertDesc c (d :: rest.filter p)
              = if d.1 ≤ c.1 then c :: d :: rest.filter p
                else d :: insertDesc c (rest.filter p) := rfl
          rw [he, if_neg hdc]
        rw [h3]
      · rw [if_neg hdp, ih hrest]
        have h2 : (d :: rest).filter p = rest.filter p := by
          rw [List.filter_cons, if_neg hdp]
        rw [h2]

theorem filter_insertDesc_neg (p : ℚ × Nat × Nat → Bool) (c : ℚ × Nat × Nat)
    (hc : ¬ p c = true) :
    ∀ (l : List (ℚ × Nat × Nat)), (insertDesc c l).filter p = l.filter p := by
  intro l
  induction l with
  | nil => simp [insertDesc, List.filter_cons, hc]
  | cons d rest ih =>
    unfold insertDesc
    by_cases hdc : d.1 ≤ c.1
    · rw [if_pos hdc, List.filter_cons, if_neg hc]
    · rw [if_neg hdc, List.filter_cons]
      by_cases hdp : p d = true
      · rw [if_pos hdp, ih]
        rw [List.filter_cons, if_pos hdp]
      · rw [if_neg hdp, ih]
        rw [List.filter_cons, if_neg hdp]

theorem sortDesc_filter (p : ℚ × Nat × Nat → Bool) :
    ∀ (l : List (ℚ × Nat × Nat)),
      (sortDesc l).filter p = sortDesc (l.filter p) := by
  intro l
  induction l with
  | nil => rfl
  | cons c rest ih =>
    show (insertDesc c (sortDesc rest)).filter p
      = sortDesc ((c :: rest).filter p)
    rw [List.filter_cons]
    by_cases hc : p c = true
    · rw [if_pos hc, filter_insertDesc_pos p c hc (sortDesc rest)
        (sortDesc_sorted rest), ih]
      rfl
    · rw [if_neg hc, filter_insertDesc_neg p c hc (sortDesc rest), ih]

theorem sorted_filter_takeWhile (t2 : ℚ) :
    ∀ (l : List (ℚ × Nat × Nat)), l.Pairwise (fun a b => b.1 ≤ a.1) →
      l.filter (fun c => t2 ≤ c.1) = l.takeWhile (fun c => t2 ≤ c.1) := by
  intro l
  induction l with
  | nil => intro _; rfl
  | cons d rest ih =>
    intro hp
    rw [List.pairwise_cons] at hp
    obtain ⟨hd, hrest⟩ := hp
    rw [List.filter_cons, List.takeWhile_cons]
    by_cases hc : t2 ≤ d.1
    · rw [if_pos (by simpa using hc), if_pos (by simpa using hc), ih hrest]
    · rw [if_neg (by simpa using hc), if_neg (by simpa using hc)]
      refine List.filter_eq_nil_iff.2 ?_
      intro x hx
      simp only [decide_eq_true_eq]
      intro hcon
      exact hc (hcon.trans (hd x hx))

theorem sortedCandidates_decomp (n m : Nat) (score : Nat → Nat → ℚ)
    (t1 t2 : ℚ) (h : t1 ≤ t2) :
    sortDesc (buildCandidates n m score t1)
      = sortDesc (buildCandidates n m score t2)
        ++ (sortDesc (buildCandidates n m score t1)).dropWhile
            (fun c => t2 ≤ c.1) := by
  have h1 : sortDesc (buildCandidates n m score t2)
      = (sortDesc (buildCandidates n m score t1)).takeWhile
          (fun c => t2 ≤ c.1) := by
    rw [buildCandidates_threshold n m score t1 t2 h, ← sortDesc_filter]
    exact sorted_filter_takeWhile t2 _ (sortDesc_sorted _)
  rw [h1, List.takeWhile_append_dropWhile]

theorem greedyStep_inv (stdH inpH : List String) (st : GreedySt)
    (c : ℚ × Nat × Nat) (hInv : GreedyInv st) :
    GreedyInv (greedyStep stdH inpH st c) := by
  unfold greedyStep
  by_cases hskip : c.2.1 ∈ st.asgStd ∨ c.2.2 ∈ st.asgInp
  · rw [if_pos hskip]
    exact hInv
  · rw [if_neg hskip]
    intro i hne
    by_cases hi : c.2.1 = i
    · subst hi
      exact List.mem_cons_self _ _
    · refine List.mem_cons_of_mem _ (hInv i ?_)
      rwa [getD_set_ne _ _ _ _ hi] at hne

theorem greedyStep_preserve (stdH inpH : List String) (st : GreedySt)
    (c : ℚ × Nat × Nat) (hInv : GreedyInv st) (i : Nat) (nz : Normalized)
    (hsome : st.result.getD i none = some nz) :
    (greedyStep stdH inpH st c).result.getD i none = some nz := by
  unfold greedyStep
  by_cases hskip : c.2.1 ∈ st.asgStd ∨ c.2.2 ∈ st.asgInp
  · rw [if_pos hskip]
    exact hsome
  · rw [if_neg hskip]
    by_cases hi : c.2.1 = i
    · subst hi
      exact absurd (hInv c.2.1 (by rw [hsome]; simp))
        (fun hmem => hskip (Or.inl hmem))
    · rw [getD_set_ne _ _ _ _ hi]
      exact hsome

theorem foldl_greedy_preserve (stdH inpH : List String) :
    ∀ (cl : List (ℚ × Nat × Nat)) (st : GreedySt), GreedyInv st →
      GreedyInv (cl.foldl (greedyStep stdH inpH) st)
      ∧ ∀ i nz, st.result.getD i none = some nz →
          (cl.foldl (greedyStep stdH inpH) st).result.getD i none = some nz := by
  intro cl
  induction cl with
  | nil => intro st hInv; exact ⟨hInv, fun _ _ hsome => hsome⟩
  | cons c rest ih =>
    intro st hInv
    rw [List.foldl_cons]
    obtain ⟨ha, hb⟩ := ih (greedyStep stdH inpH st c)
      (greedyStep_inv stdH inpH st c hInv)
    exact ⟨ha, fun i nz hsome =>
      hb i nz (greedyStep_preserve stdH inpH st c hInv i nz hsome)⟩

theorem countP_le_of_pointwise {α : Type} (p : α → Bool) :
    ∀ (l2 l1 : List α), l2.length = l1.length →
      (∀ (i : Nat) (x2 : α), l2[i]? = some x2 → p x2 = true →
        ∃ x1, l1[i]? = some x1 ∧ p x1 = true) →
      l2.countP p ≤ l1.countP p := by
  intro l2
  induction l2 with
  | nil => intro l1 _ _; simp
  | cons y ys ih =>
    intro l1 hlen hpt
    cases l1 with
    | nil => simp at hlen
    | cons x xs =>
      have hlen' : ys.length = xs.length := by simpa using hlen
      have hpt' : ∀ (i : Nat) (x2 : α), ys[i]? = some x2 → p x2 = true →
          ∃ x1, xs[i]? = some x1 ∧ p x1 = true := by
        intro i x2 hget hp
        have hstep := hpt (i + 1) x2 (by simpa using hget) hp
        simpa using hstep
      rw [List.countP_cons, List.countP_cons]
      by_cases hy : p y = true
      · obtain ⟨x1, hx1, hpx1⟩ := hpt 0 y (by simp) hy
        have hx : x1 = x := by simpa using hx1.symm
        subst hx
        rw [if_pos hy, if_pos hpx1]
        exact Nat.add_le_add_right (ih xs hlen' hpt') 1
      · rw [if_neg hy]
        have h1 := ih xs hlen' hpt'
        have h2 : (0 : Nat) ≤ if p x = true then 1 else 0 := Nat.zero_le _
        omega

/-- C6: for a fixed schema, input header list and score matrix, raising
`min_confidence` from `t1` to `t2 ≥ t1` never adds a match: every position
that carries a non-null `input_header` in the `t2` run carries the *same*
assignment in the `t1` run, and the count of non-null matches at `t2` is at
most the count at `t1`. -/
theorem c6_threshold_monotone (stdH inpH : List String)
    (score : Nat → Nat → ℚ) (t1 t2 : ℚ) (h : t1 ≤ t2) :
    (∀ (i : Nat) (nz : Normalized),
        (semantic_similarity stdH inpH score t2)[i]? = some nz →
        nz.2.1.isSome = true →
        (semantic_similarity stdH inpH score t1)[i]? = some nz)
    ∧ (semantic_similarity stdH inpH score t2).countP
          (fun nz => nz.2.1.isSome)
        ≤ (semantic_similarity stdH inpH score t1).countP
            (fun nz => nz.2.1.isSome) := by
  have hInvInit : GreedyInv
      { asgStd := [], asgInp := [], result := List.replicate stdH.length none } := by
    intro i hne
    exfalso
    apply hne
    rw [List.getD_eq_getElem?_getD]
    rcases Nat.lt_or_ge i stdH.length with hk | hk
    · rw [List.getElem?_replicate, if_pos hk]
      rfl
    · rw [List.getElem?_replicate, if_neg (by omega)]
      rfl
  have hInv2 := (foldl_greedy_preserve stdH inpH
    (sortDesc (buildCandidates stdH.length inpH.length score t2))
    { asgStd := [], asgInp := [], result := List.replicate stdH.length none }
    hInvInit).1
  have hfoldeq :
      (sortDesc (buildCandidates stdH.length inpH.length score t1)).foldl
          (greedyStep stdH inpH)
          { asgStd := [], asgInp := [], result := List.replicate stdH.length none }
        = ((sortDesc (buildCandidates stdH.length inpH.length score t1)).dropWhile
            (fun c => t2 ≤ c.1)).foldl (greedyStep stdH inpH)
            ((sortDesc (buildCandidates stdH.length inpH.length score t2)).foldl
              (greedyStep stdH inpH)
              { asgStd := [], asgInp := [],
                result := List.replicate stdH.length none }) := by
    conv_lhs =>
      rw [sortedCandidates_decomp stdH.length inpH.length score t1 t2 h]
    rw [List.foldl_append]
  have hpres : ∀ i nz,
      ((sortDesc (buildCandidates stdH.length inpH.length score t2)).foldl
          (greedyStep stdH inpH)
          { asgStd := [], asgInp := [],
            result := List.replicate stdH.length none }).result.getD i none
        = some nz →
      ((sortDesc (buildCandidates stdH.length inpH.length score t1)).foldl
          (greedyStep stdH inpH)
          { asgStd := [], asgInp := [],
            result := List.replicate stdH.length none }).result.getD i none
        = some nz := by
    intro i nz hsome
    rw [hfoldeq]
    exact (foldl_greedy_preserve stdH inpH _ _ hInv2).2 i nz hsome
  have part1 : ∀ (i : Nat) (nz : Normalized),
      (semantic_similarity stdH inpH score t2)[i]? = some nz →
      nz.2.1.isSome = true →
      (semantic_similarity stdH inpH score t1)[i]? = some nz := by
    intro i nz hget hsome
    have hi : i < stdH.length := by
      obtain ⟨hlt, _⟩ := List.getElem?_eq_some_iff.1 hget
      rwa [semantic_similarity_length] at hlt
    unfold semantic_similarity at hget ⊢
    rw [fillNone_get stdH _ i hi] at hget ⊢
    cases hres : ((sortDesc (buildCandidates stdH.length inpH.length score t2)).foldl
        (greedyStep stdH inpH)
        { asgStd := [], asgInp := [],
          result := List.replicate stdH.length none }).result.getD i none with
    | none =>
      rw [hres] at hget
      have hnz : nz = (stdH.getD i "", none, 0) := by simpa using hget.symm
      subst hnz
      simp at hsome
    | some nz' =>
      rw [hres] at hget
      have hnz : nz' = nz := by simpa using hget
      subst hnz
      rw [hpres i nz' hres]
  refine ⟨part1, countP_le_of_pointwise _ _ _ ?_ ?_⟩
  · rw [semantic_similarity_length, semantic_similarity_length]
  · intro i x2 hget hp
    exact ⟨x2, part1 i x2 hget hp, hp⟩

/-- C6 witness: the monotonicity theorem applied at the concrete thresholds
`0 ≤ 1` over a one-column schema and a flat zero score matrix. -/
theorem c6_threshold_monotone_witness :
    (0 : ℚ) ≤ 1
    ∧ (semantic_similarity (["A"]) (["x"]) (fun _ _ => 0) 1).countP
          (fun nz => nz.2.1.isSome)
        ≤ (semantic_similarity (["A"]) (["x"]) (fun _ _ => 0) 0).countP
            (fun nz => nz.2.1.isSome) :=
  ⟨by decide,
   (c6_threshold_monotone (["A"]) (["x"]) (fun _ _ => 0) 0 1 (by decide)).2⟩
